import Mathlib

/-!
Verification of the SampleScheduler core (src/main.py): task-set data model,
structural validation with DFS cycle detection, Kahn topological ordering and
critical-path (earliest start / earliest finish) computation.

Python float durations are modelled as integers: every property verified here
uses only ordered-ring reasoning (sums, maxima, comparisons) and no division or
rounding, so the numeric carrier does not affect any statement.  Python dicts
are modelled as association lists (key order = insertion order) or as partial
functions; an uncaught Python exception (KeyError, ValueError on list.index,
ValueError of max() on an empty sequence) is modelled as the value `none`.
-/

namespace Scheduler

/-- Embeds the dataclass `Task` (src/main.py lines 11-16). -/
structure Task where
  name : String
  duration_seconds : Int
  deps : List String
deriving DecidableEq

/-- Embeds the dataclass `TaskSet` (lines 19-23): the dict `tasks` is an
association list in insertion order, `order` the declaration-order list. -/
structure TaskSet where
  tasks : List (String × Task)
  order : List String
deriving DecidableEq

/-- The key sequence of the `tasks` dict, in dict (insertion) order. -/
def keysOf (ts : TaskSet) : List String := ts.tasks.map Prod.fst

/-- The message of line 104. -/
def msgDur (n : String) : String :=
  "Task \x27" ++ n ++ "\x27: duration must be non-negative."

/-- The message of line 107. -/
def msgSelf (n : String) : String :=
  "Task \x27" ++ n ++ "\x27: cannot depend on itself."

/-- The message of line 109. -/
def msgDangling (n d : String) : String :=
  "Task \x27" ++ n ++ "\x27: dependency \x27" ++ d ++ "\x27 not found."

/-- The message of line 125. -/
def msgCycle (cycle : List String) : String :=
  "Cycle detected: " ++ String.intercalate " -> " cycle

/-- The per-task checks of `validate_tasks` (lines 102-109) for one task. -/
def taskErrs (ks : List String) (t : Task) : List String :=
  (if t.duration_seconds < 0 then [msgDur t.name] else []) ++
  t.deps.flatMap (fun d =>
    (if d = t.name then [msgSelf t.name] else []) ++
    (if d ∈ ks then [] else [msgDangling t.name d]))

/-- The errors accumulated by the first loop of `validate_tasks` (lines 102-109),
in dict order. -/
def perTaskErrors (ts : TaskSet) : List String :=
  ts.tasks.flatMap (fun p => taskErrs (keysOf ts) p.2)

/-- The DFS colors of line 112. -/
inductive Color where
  | WHITE
  | GRAY
  | BLACK
deriving DecidableEq

/-- The mutable state shared by `validate_tasks` and its nested `dfs`
(lines 99 and 113): the `color` dict (a partial map: a lookup of an absent
key is a KeyError) and the accumulated `errors` list. -/
structure VState where
  color : String → Option Color
  errors : List String

/-- The `for v in ts.tasks[u].deps` loop of lines 119-126, followed by the
epilogue of lines 127-129 (blacken `u`, pop, return True).  `stk` is the stack
after `u` has been pushed; `child` is the recursive `dfs` call (at one less
fuel) for white successors. -/
def dfsLoop (child : String → List String → VState → Option (Bool × VState))
    (stk : List String) (u : String) (ds : List String) (st : VState) :
    Option (Bool × VState) :=
  match ds with
  | [] =>
    some (true,
      { st with color := fun n => if n = u then some Color.BLACK else st.color n })
  | v :: rest =>
    match st.color v with
    | none => none
    | some Color.WHITE =>
      match child v stk st with
      | none => none
      | some (b, st2) => if b then dfsLoop child stk u rest st2 else some (false, st2)
    | some Color.GRAY =>
      if v ∈ stk then
        some (false,
          { st with errors := st.errors ++ [msgCycle (stk.drop (stk.indexOf v) ++ [v])] })
      else none
    | some Color.BLACK => dfsLoop child stk u rest st

/-- Embeds the recursive `dfs` of lines 115-129.  `fuel` bounds the recursion
depth (the Python recursion is unbounded; every call site supplies more fuel
than there are tasks, which is more than the depth can reach since each nested
call grays a distinct white node).  `none` models an uncaught exception. -/
def dfs (ts : TaskSet) : Nat → String → List String → VState →
    Option (Bool × VState)
  | 0, _, _, _ => none
  | f + 1, u, stack, st =>
    let st1 : VState :=
      { st with color := fun n => if n = u then some Color.GRAY else st.color n }
    match ts.tasks.lookup u with
    | none => none
    | some t => dfsLoop (dfs ts f) (stack ++ [u]) u t.deps st1

/-- The fuel every root DFS call is given: strictly more than the number of
tasks, hence more than any reachable recursion depth. -/
def dfsFuel (ts : TaskSet) : Nat := ts.tasks.length + 1

/-- The outer loop of lines 132-134: start a DFS from every still-white name,
in dict order. -/
def validOuter (ts : TaskSet) (names : List String) (st : VState) : Option VState :=
  match names with
  | [] => some st
  | n :: rest =>
    match st.color n with
    | none => none
    | some Color.WHITE =>
      match dfs ts (dfsFuel ts) n [] st with
      | none => none
      | some (_, st2) => validOuter ts rest st2
    | some Color.GRAY => validOuter ts rest st
    | some Color.BLACK => validOuter ts rest st

/-- Embeds `validate_tasks` (lines 91-136): per-task checks, then DFS cycle
detection from every white root.  `none` models an uncaught exception. -/
def validate_tasks (ts : TaskSet) : Option (List String) :=
  let st0 : VState :=
    { color := fun n => if n ∈ keysOf ts then some Color.WHITE else none,
      errors := perTaskErrors ts }
  (validOuter ts (keysOf ts) st0).map VState.errors

/-- The `for d in t.deps: indeg[t.name] += 1` loop of lines 146-147 for one
task: one increment of `indeg[t.name]` per dependency occurrence (a KeyError
when `t.name` is not a key). -/
def bumpIndeg (nm : String) (ds : List String) (ind : String → Option Int) :
    Option (String → Option Int) :=
  match ds with
  | [] => some ind
  | _ :: rest =>
    match ind nm with
    | none => none
    | some k => bumpIndeg nm rest (fun n => if n = nm then some (k + 1) else ind n)

/-- The indegree-building loop of lines 145-147 over all tasks. -/
def buildIndeg (l : List (String × Task)) (ind : String → Option Int) :
    Option (String → Option Int) :=
  match l with
  | [] => some ind
  | p :: rest =>
    match bumpIndeg p.2.name p.2.deps ind with
    | none => none
    | some ind2 => buildIndeg rest ind2

/-- The `adj_rev[d].append(t.name)` loop of lines 155-156 for one task
(a KeyError when a dependency is not a key). -/
def addAdjOne (nm : String) (ds : List String) (adj : String → Option (List String)) :
    Option (String → Option (List String)) :=
  match ds with
  | [] => some adj
  | d :: rest =>
    match adj d with
    | none => none
    | some l => addAdjOne nm rest (fun n => if n = d then some (l ++ [nm]) else adj n)

/-- The reverse-adjacency building loop of lines 154-156 over all tasks. -/
def buildAdjRev (l : List (String × Task)) (adj : String → Option (List String)) :
    Option (String → Option (List String)) :=
  match l with
  | [] => some adj
  | p :: rest =>
    match addAdjOne p.2.name p.2.deps adj with
    | none => none
    | some adj2 => buildAdjRev rest adj2

/-- The `for v in adj_rev[u]` body of lines 163-166: decrement `indeg[v]`,
enqueue `v` when it reaches zero. -/
def innerDec (vs : List String) (q : List String) (ind : String → Option Int) :
    Option (List String × (String → Option Int)) :=
  match vs with
  | [] => some (q, ind)
  | v :: rest =>
    match ind v with
    | none => none
    | some k =>
      innerDec rest (if k - 1 = 0 then q ++ [v] else q)
        (fun n => if n = v then some (k - 1) else ind n)

/-- The `while q` loop of lines 160-166: FIFO worklist, pop the head, append it
to the output order, decrement its dependents.  `fuel` bounds the iteration
count (every call site supplies more fuel than the number of possible pops). -/
def topoLoop (adj : String → Option (List String)) (fuel : Nat) (q : List String)
    (order : List String) (ind : String → Option Int) : Option (List String) :=
  match fuel, q with
  | _, [] => some order
  | 0, _ :: _ => none
  | f + 1, u :: q2 =>
    match adj u with
    | none => none
    | some vs =>
      match innerDec vs q2 ind with
      | none => none
      | some (q3, ind2) => topoLoop adj f q3 (order ++ [u]) ind2

/-- Embeds `topo_order` (lines 139-167): Kahn's algorithm.  `none` models an
uncaught KeyError. -/
def topo_order (ts : TaskSet) : Option (List String) :=
  let ks := keysOf ts
  let ind0 : String → Option Int := fun n => if n ∈ ks then some 0 else none
  match buildIndeg ts.tasks ind0 with
  | none => none
  | some ind =>
    let q0 := ks.filter (fun n => decide (ind n = some 0))
    let adj0 : String → Option (List String) := fun n => if n ∈ ks then some [] else none
    match buildAdjRev ts.tasks adj0 with
    | none => none
    | some adj => topoLoop adj (2 * ts.tasks.length + 1) q0 [] ind

/-- Binary maximum, written out with an `if` so that it evaluates by kernel
reduction; it agrees with `max`. -/
def rmax (a b : Int) : Int := if a ≤ b then b else a

/-- Python's `max` over a list of floats: `none` on the empty list models the
ValueError `max() arg is an empty sequence`. -/
def pyMax (l : List Int) : Option Int :=
  match l with
  | [] => none
  | x :: xs => some (xs.foldl rmax x)

/-- Python dict assignment `m[k] = v`: replace in place when the key exists,
append otherwise. -/
def upsert {α : Type} (m : List (String × α)) (k : String) (v : α) : List (String × α) :=
  if k ∈ m.map Prod.fst then m.map (fun p => if p.1 = k then (k, v) else p)
  else m ++ [(k, v)]

/-- The propagation loop of lines 179-186: for each name in topological order,
earliest start = 0 without dependencies, otherwise the max earliest finish of
the dependencies; earliest finish = earliest start + duration. -/
def etrLoop (ts : TaskSet) (ord : List String) (es ef : List (String × Int)) :
    Option (List (String × Int) × List (String × Int)) :=
  match ord with
  | [] => some (es, ef)
  | n :: rest =>
    match ts.tasks.lookup n with
    | none => none
    | some t =>
      match t.deps with
      | [] => etrLoop ts rest (upsert es n 0) (upsert ef n (0 + t.duration_seconds))
      | _ :: _ =>
        match t.deps.mapM (fun d => ef.lookup d) with
        | none => none
        | some fs =>
          match pyMax fs with
          | none => none
          | some m =>
            etrLoop ts rest (upsert es n m) (upsert ef n (m + t.duration_seconds))

/-- Embeds `expected_total_runtime` (lines 170-189): critical-path analysis
over the topological order; makespan = `max(ef.values())` (a ValueError, hence
`none`, when there are no tasks). -/
def expected_total_runtime (ts : TaskSet) :
    Option (Int × List (String × Int) × List (String × Int)) :=
  match topo_order ts with
  | none => none
  | some ord =>
    let es0 := (keysOf ts).map (fun n => (n, (0 : Int)))
    let ef0 := (keysOf ts).map (fun n => (n, (0 : Int)))
    match etrLoop ts ord es0 ef0 with
    | none => none
    | some (es, ef) =>
      match pyMax (ef.map Prod.snd) with
      | none => none
      | some mk => some (mk, es, ef)

/-- One iteration of the loading loop (lines 82-86): a skipped line changes
nothing; a parsed task is assigned into the dict under its name (line 85,
the same dict-assignment semantics as `upsert`) and its name is appended,
unconditionally, to the order list (line 86). -/
def loadStep (acc : TaskSet) (item : Option Task) : TaskSet :=
  match item with
  | none => acc
  | some t => { tasks := upsert acc.tasks t.name t,
                order := acc.order ++ [t.name] }

/-- Embeds the accumulation loop of `load_tasks_from_text` (lines 77-89): the
argument is the list of per-line outcomes of `parse_task_line` (`none` for a
skipped blank/comment line). -/
def load_tasks_from_text (parsed : List (Option Task)) : TaskSet :=
  parsed.foldl loadStep { tasks := [], order := [] }

/-- Helper for building concrete tasks. -/
def mkTask (n : String) (d : Int) (ds : List String) : Task :=
  { name := n, duration_seconds := d, deps := ds }

/-- Scenario A of the spec: A(1,[]), B(2,[A]), C(3,[A]), D(1,[B,C]). -/
def scA : TaskSet :=
  { tasks := [("A", mkTask "A" 1 []), ("B", mkTask "B" 2 ["A"]),
              ("C", mkTask "C" 3 ["A"]), ("D", mkTask "D" 1 ["B", "C"])],
    order := ["A", "B", "C", "D"] }

/-- Scenario B of the spec: X(1,[Y]), Y(1,[X]). -/
def scB : TaskSet :=
  { tasks := [("X", mkTask "X" 1 ["Y"]), ("Y", mkTask "Y" 1 ["X"])],
    order := ["X", "Y"] }

/-- Scenario D of the spec: a single task A(1,[Z]) with Z undeclared. -/
def scD : TaskSet :=
  { tasks := [("A", mkTask "A" 1 ["Z"])], order := ["A"] }

/-- The empty task set. -/
def emptyTS : TaskSet := { tasks := [], order := [] }

/-- Tasks a and b form a cycle and e depends on b (dict order a, b, e): after
the a-b cycle is found, b stays gray and off the stack, so the traversal from
e hits `stack.index` on an absent element. -/
def cex4 : TaskSet :=
  { tasks := [("a", mkTask "a" 1 ["b"]), ("b", mkTask "b" 1 ["a"]),
              ("e", mkTask "e" 1 ["b"])],
    order := ["a", "b", "e"] }

/-- Two disjoint cycles a-b and c-d plus a task e depending on b, declared
between them (dict order a, b, e, c, d). -/
def cex6 : TaskSet :=
  { tasks := [("a", mkTask "a" 1 ["b"]), ("b", mkTask "b" 1 ["a"]),
              ("e", mkTask "e" 1 ["b"]),
              ("c", mkTask "c" 1 ["d"]), ("d", mkTask "d" 1 ["c"])],
    order := ["a", "b", "e", "c", "d"] }

/-- Two disjoint cycles a-b and c-d with nothing else. -/
def twoCycles : TaskSet :=
  { tasks := [("a", mkTask "a" 1 ["b"]), ("b", mkTask "b" 1 ["a"]),
              ("c", mkTask "c" 1 ["d"]), ("d", mkTask "d" 1 ["c"])],
    order := ["a", "b", "c", "d"] }

/-- A parse outcome sequence declaring the name A twice with different
durations (with a skipped line and another task in between). -/
def dupParsed : List (Option Task) :=
  [some (mkTask "A" 1 []), none, some (mkTask "B" 2 ["A"]),
   some (mkTask "A" 3 [])]

/-- A non-empty task set with no dependency edges at all. -/
def noDepTS : TaskSet :=
  { tasks := [("P", mkTask "P" 5 []), ("Q", mkTask "Q" 3 []),
              ("R", mkTask "R" 4 [])],
    order := ["P", "Q", "R"] }

/-- Spec-side: keep a name only at its first occurrence. -/
def keyStep (acc : List String) (x : String) : List String :=
  if x ∈ acc then acc else acc ++ [x]

/-- Spec-side: the key sequence of a Python dict fed a sequence of names, i.e.
each distinct name at the position of its first occurrence. -/
def specKeys (order : List String) : List String :=
  order.foldl keyStep []

/-- Spec-side: keep the most recent task declared under the name `k`. -/
def lastStep (k : String) (acc : Option Task) (item : Option Task) :
    Option Task :=
  match item with
  | some t => if t.name = k then some t else acc
  | none => acc

/-- Spec-side: the last task declared under a given name (last-value-wins). -/
def lastTask (parsed : List (Option Task)) (k : String) : Option Task :=
  parsed.foldl (lastStep k) none

/-! ### Specification predicates used by the proofs -/

/-- The dependency list of `n` as the dict sees it ([] when absent). -/
def depsOf (ts : TaskSet) (n : String) : List String :=
  match ts.tasks.lookup n with
  | some t => t.deps
  | none => []

/-- Rank invariant: every black node's dependencies are black and of strictly
smaller rank. -/
def BlackInv (ts : TaskSet) (r : String → Nat) (st : VState) : Prop :=
  ∀ u t, st.color u = some Color.BLACK → ts.tasks.lookup u = some t →
    ∀ v ∈ t.deps, st.color v = some Color.BLACK ∧ r v < r u

/-- Errors only grow, and a `False` verdict always contributes at least one. -/
def ErrExt (st st' : VState) (b : Bool) : Prop :=
  ∃ tl, st'.errors = st.errors ++ tl ∧ (b = false → tl ≠ [])

/-- Postcondition of one `dfs` call on `u`. -/
def DfsPost (ts : TaskSet) (st st' : VState) (b : Bool) (u : String) : Prop :=
  (∀ n, st.color n = some Color.BLACK → st'.color n = some Color.BLACK) ∧
  (∀ n, (st.color n).isSome → (st'.color n).isSome) ∧
  ErrExt st st' b ∧
  (∀ r, BlackInv ts r st → ∃ r2, BlackInv ts r2 st') ∧
  (b = true →
    (∀ n, (st'.color n = some Color.GRAY ↔ st.color n = some Color.GRAY)) ∧
    st'.color u = some Color.BLACK)

/-- Postcondition of the dependency loop of `dfs` on `u` (which `u` itself
leaves gray on failure and black on success). -/
def DfsPostL (ts : TaskSet) (st st' : VState) (b : Bool) (u : String) : Prop :=
  (∀ n, st.color n = some Color.BLACK → st'.color n = some Color.BLACK) ∧
  (∀ n, (st.color n).isSome → (st'.color n).isSome) ∧
  ErrExt st st' b ∧
  (∀ r, BlackInv ts r st → ∃ r2, BlackInv ts r2 st') ∧
  (b = true →
    (∀ n, n ≠ u → (st'.color n = some Color.GRAY ↔ st.color n = some Color.GRAY)) ∧
    st'.color u = some Color.BLACK)

/-- A bound for the ranks of a list of nodes. -/
def maxOver (r : String → Nat) (l : List String) : Nat :=
  (l.map r).foldr max 0

/-- How many times `u` occurs among the dependencies of tasks named `m` in the
association-list prefix `l` (proof bookkeeping for `buildAdjRev`). -/
def cntDeps (l : List (String × Task)) (u m : String) : Nat :=
  ((l.filter (fun p => decide ((p.2).name = m))).map (fun p => (p.2).deps.count u)).sum

/-- The earliest-start/earliest-finish recurrence of lines 179-186 at one name:
start is 0 without dependencies and otherwise the Python max of the
dependencies' finish values; finish is start plus the task's own duration. -/
def EtrRec (ts : TaskSet) (es ef : List (String × Int)) (k : String) : Prop :=
  ∃ t, ts.tasks.lookup k = some t ∧ ∃ s, es.lookup k = some s ∧
    ef.lookup k = some (s + t.duration_seconds) ∧
    (t.deps = [] → s = 0) ∧
    (t.deps ≠ [] → ∃ l, t.deps.mapM (fun d => ef.lookup d) = some l ∧
      pyMax l = some s)


/-! ### Association-list and index lemmas -/

theorem lookup_cons_eq {α : Type} (k : String) (b : α) (t : List (String × α)) :
    ((k, b) :: t).lookup k = some b := by
  simp [List.lookup]

theorem lookup_cons_ne {α : Type} {k a : String} (b : α) (t : List (String × α))
    (h : k ≠ a) : ((a, b) :: t).lookup k = t.lookup k := by
  simp [List.lookup, beq_eq_false_iff_ne.2 h]

theorem lookup_isSome_iff {α : Type} (l : List (String × α)) (k : String) :
    (l.lookup k).isSome ↔ k ∈ l.map Prod.fst := by
  induction l with
  | nil => simp [List.lookup]
  | cons p t ih =>
    by_cases h : k = p.1
    · subst h
      simp [List.lookup]
    · rw [show p = (p.1, p.2) from rfl, lookup_cons_ne _ _ h]
      simp [ih, h]

theorem lookup_eq_none_iff {α : Type} (l : List (String × α)) (k : String) :
    l.lookup k = none ↔ k ∉ l.map Prod.fst := by
  rw [← lookup_isSome_iff, Option.isSome_iff_ne_none]
  tauto

theorem lookup_mem {α : Type} {l : List (String × α)} {k : String} {v : α}
    (h : l.lookup k = some v) : (k, v) ∈ l := by
  induction l with
  | nil => simp [List.lookup] at h
  | cons p t ih =>
    obtain ⟨a, b⟩ := p
    by_cases hk : k = a
    · subst hk
      rw [lookup_cons_eq] at h
      simp_all
    · rw [lookup_cons_ne _ _ hk] at h
      exact List.mem_cons_of_mem _ (ih h)

theorem mem_lookup_of_nodup {α : Type} {l : List (String × α)} {k : String} {v : α}
    (hU : (l.map Prod.fst).Nodup) (h : (k, v) ∈ l) : l.lookup k = some v := by
  induction l with
  | nil => simp at h
  | cons p t ih =>
    obtain ⟨a, b⟩ := p
    simp only [List.map_cons, List.nodup_cons] at hU
    rcases List.mem_cons.1 h with h1 | h1
    · rw [Prod.mk.injEq] at h1
      obtain ⟨h1a, h1b⟩ := h1
      subst h1a; subst h1b
      exact lookup_cons_eq _ _ _
    · have hk : k ≠ a := by
        rintro rfl
        exact hU.1 (List.mem_map.2 ⟨(k, v), h1, rfl⟩)
      rw [lookup_cons_ne _ _ hk]
      exact ih hU.2 h1

theorem mem_keys_of_mem {α : Type} {l : List (String × α)} {k : String} {v : α}
    (h : (k, v) ∈ l) : k ∈ l.map Prod.fst :=
  List.mem_map.2 ⟨(k, v), h, rfl⟩

/-- `upsert` leaves the key sequence unchanged when the key is present. -/
theorem upsert_map_fst_of_mem {α : Type} {m : List (String × α)} {k : String} (v : α)
    (h : k ∈ m.map Prod.fst) : (upsert m k v).map Prod.fst = m.map Prod.fst := by
  unfold upsert
  rw [if_pos h, List.map_map]
  refine List.map_congr_left ?_
  intro p _
  by_cases hp : p.1 = k <;> simp [hp]

theorem lookup_map_replace_self {α : Type} {m : List (String × α)} {k : String} (v : α)
    (h : k ∈ m.map Prod.fst) :
    (m.map (fun p => if p.1 = k then (k, v) else p)).lookup k = some v := by
  induction m with
  | nil => simp at h
  | cons p t ih =>
    obtain ⟨a, b⟩ := p
    by_cases ha : a = k
    · simp only [List.map_cons, if_pos ha]
      exact lookup_cons_eq _ _ _
    · simp only [List.map_cons, if_neg ha]
      have hk : k ≠ a := fun hh => ha hh.symm
      rw [lookup_cons_ne _ _ hk]
      simp only [List.map_cons, List.mem_cons] at h
      exact ih (h.resolve_left hk)

theorem lookup_map_replace_other {α : Type} {m : List (String × α)} {k k2 : String} (v : α)
    (h : k2 ≠ k) :
    (m.map (fun p => if p.1 = k then (k, v) else p)).lookup k2 = m.lookup k2 := by
  induction m with
  | nil => simp
  | cons p t ih =>
    obtain ⟨a, b⟩ := p
    by_cases ha : a = k
    · simp only [List.map_cons, if_pos ha]
      subst ha
      rw [lookup_cons_ne _ _ h, lookup_cons_ne _ _ h]
      exact ih
    · simp only [List.map_cons, if_neg ha]
      by_cases hk2 : k2 = a
      · subst hk2
        rw [lookup_cons_eq, lookup_cons_eq]
      · rw [lookup_cons_ne _ _ hk2, lookup_cons_ne _ _ hk2]
        exact ih

theorem lookup_append_single_other {α : Type} {m : List (String × α)} {k k2 : String} (v : α)
    (h : k2 ≠ k) : (m ++ [(k, v)]).lookup k2 = m.lookup k2 := by
  induction m with
  | nil => simp [List.lookup, beq_eq_false_iff_ne.2 h]
  | cons p t ih =>
    obtain ⟨a, b⟩ := p
    by_cases hk2 : k2 = a
    · subst hk2
      simp only [List.cons_append]
      rw [lookup_cons_eq, lookup_cons_eq]
    · simp only [List.cons_append]
      rw [lookup_cons_ne _ _ hk2, lookup_cons_ne _ _ hk2]
      exact ih

theorem upsert_lookup_self {α : Type} {m : List (String × α)} {k : String} (v : α) :
    (upsert m k v).lookup k = some v := by
  unfold upsert
  by_cases hm : k ∈ m.map Prod.fst
  · rw [if_pos hm]
    exact lookup_map_replace_self v hm
  · rw [if_neg hm]
    induction m with
    | nil => simp [List.lookup]
    | cons p t ih =>
      obtain ⟨a, b⟩ := p
      simp only [List.map_cons, List.mem_cons] at hm
      push_neg at hm
      simp only [List.cons_append]
      rw [lookup_cons_ne _ _ hm.1]
      exact ih hm.2

theorem upsert_lookup_other {α : Type} {m : List (String × α)} {k k2 : String} (v : α)
    (h : k2 ≠ k) : (upsert m k v).lookup k2 = m.lookup k2 := by
  unfold upsert
  by_cases hm : k ∈ m.map Prod.fst
  · rw [if_pos hm]
    exact lookup_map_replace_other v h
  · rw [if_neg hm]
    exact lookup_append_single_other v h

/-! ### DFS cycle-detection invariants

The key consequence extracted from a successful run of `validate_tasks` with an
empty error list is a rank function that strictly decreases along dependency
edges: every task is blackened only after all of its dependencies, so the
blackening order witnesses acyclicity. -/

theorem le_maxOver {r : String → Nat} {l : List String} {v : String} (h : v ∈ l) :
    r v ≤ maxOver r l := by
  induction l with
  | nil => simp at h
  | cons a t ih =>
    rcases List.mem_cons.1 h with h1 | h1
    · subst h1
      exact le_max_left _ _ |>.trans_eq rfl
    · exact le_trans (ih h1) (le_max_right _ _)

theorem errExt_refl (st : VState) : ErrExt st st true :=
  ⟨[], by simp, by simp⟩

theorem dfsLoop_spec (ts : TaskSet)
    (child : String → List String → VState → Option (Bool × VState))
    (hchild : ∀ v stk st b st', child v stk st = some (b, st') →
      st.color v = some Color.WHITE → DfsPost ts st st' b v)
    (u : String) (t : Task) (hlk : ts.tasks.lookup u = some t) :
    ∀ ds stk st b st', dfsLoop child stk u ds st = some (b, st') →
      st.color u = some Color.GRAY →
      (∀ w ∈ t.deps, w ∉ ds → st.color w = some Color.BLACK) →
      DfsPostL ts st st' b u := by
  intro ds
  induction ds with
  | nil =>
    intro stk st b st' hrun hu hdone
    simp only [dfsLoop, Option.some.injEq, Prod.mk.injEq] at hrun
    obtain ⟨hb, hst'⟩ := hrun
    subst hb
    subst hst'
    refine ⟨?_, ?_, errExt_refl st, ?_, ?_⟩
    · intro n hn
      by_cases hnu : n = u <;> simp [hnu, hn]
    · intro n hn
      by_cases hnu : n = u <;> simp [hnu]
      · simpa [hnu] using hn
    · intro r hr
      refine ⟨fun n => if n = u then maxOver r t.deps + 1 else r n, ?_⟩
      intro w t2 hw hlk2 v hv
      by_cases hwu : w = u
      · subst hwu
        rw [hlk] at hlk2
        obtain rfl : t = t2 := by injection hlk2
        have hvb : st.color v = some Color.BLACK := hdone v hv (by simp)
        have hvu : v ≠ w := by
          intro hh
          rw [hh, hu] at hvb
          simp at hvb
        constructor
        · simp [hvu, hvb]
        · simp only [if_pos rfl, if_neg hvu]
          exact Nat.lt_succ_of_le (le_maxOver hv)
      · have hwb : st.color w = some Color.BLACK := by
          simpa [hwu] using hw
        obtain ⟨hvb, hvr⟩ := hr w t2 hwb hlk2 v hv
        have hvu : v ≠ u := by
          intro hh
          rw [hh, hu] at hvb
          simp at hvb
        constructor
        · simp [hvu, hvb]
        · simp only [if_neg hvu, if_neg hwu]
          exact hvr
    · intro _
      refine ⟨?_, by simp⟩
      intro n hnu
      simp [hnu]
  | cons v rest ih =>
    intro stk st b st' hrun hu hdone
    simp only [dfsLoop] at hrun
    cases hcv : st.color v with
    | none => rw [hcv] at hrun; exact absurd hrun (by simp)
    | some c =>
      rw [hcv] at hrun
      cases c with
      | WHITE =>
        cases hch : child v stk st with
        | none => rw [hch] at hrun; exact absurd hrun (by simp)
        | some p =>
          obtain ⟨bc, st2⟩ := p
          rw [hch] at hrun
          have hcpost := hchild v stk st bc st2 hch hcv
          obtain ⟨hcb, hcs, hce, hcr, hct⟩ := hcpost
          cases bc with
          | false =>
            simp only [Bool.false_eq_true, ite_false, Option.some.injEq,
              Prod.mk.injEq] at hrun
            obtain ⟨hb, hst'⟩ := hrun
            subst hb
            subst hst'
            exact ⟨hcb, hcs, hce, hcr, by simp⟩
          | true =>
            simp only [ite_true] at hrun
            have hpost := ih stk st2 b st' hrun
              (by
                have := (hct rfl).1 u
                exact this.mpr hu |>.symm ▸ (this.mpr hu))
              (by
                intro w hw hwrest
                by_cases hwv : w = v
                · subst hwv
                  exact (hct rfl).2
                · have hwb : st.color w = some Color.BLACK :=
                    hdone w hw (by simp [hwv, hwrest])
                  exact hcb w hwb)
            obtain ⟨hpb, hps, hpe, hpr, hpt⟩ := hpost
            refine ⟨fun n hn => hpb n (hcb n hn), fun n hn => hps n (hcs n hn), ?_, ?_, ?_⟩
            · obtain ⟨tl1, htl1, _⟩ := hce
              obtain ⟨tl2, htl2, hne2⟩ := hpe
              exact ⟨tl1 ++ tl2, by rw [htl2, htl1, List.append_assoc],
                fun hb => by simp [hne2 hb]⟩
            · intro r hr
              obtain ⟨r2, hr2⟩ := hcr r hr
              exact hpr r2 hr2
            · intro hb
              obtain ⟨hpg, hpu⟩ := hpt hb
              refine ⟨?_, hpu⟩
              intro n hnu
              rw [hpg n hnu, (hct rfl).1 n]
      | GRAY =>
        by_cases hvstk : v ∈ stk
        · rw [if_pos hvstk] at hrun
          simp only [Option.some.injEq, Prod.mk.injEq] at hrun
          obtain ⟨hb, hst'⟩ := hrun
          subst hb
          subst hst'
          refine ⟨fun n hn => hn, fun n hn => hn, ?_, ?_, by simp⟩
          · exact ⟨[msgCycle (stk.drop (stk.indexOf v) ++ [v])], rfl, by simp⟩
          · intro r hr
            exact ⟨r, hr⟩
        · rw [if_neg hvstk] at hrun
          exact absurd hrun (by simp)
      | BLACK =>
        have := ih stk st b st' hrun hu
          (by
            intro w hw hwrest
            by_cases hwv : w = v
            · subst hwv; exact hcv
            · exact hdone w hw (by simp [hwv, hwrest]))
        exact this

theorem dfs_spec (ts : TaskSet) :
    ∀ f u stack st b st', dfs ts f u stack st = some (b, st') →
      st.color u = some Color.WHITE → DfsPost ts st st' b u := by
  intro f
  induction f with
  | zero =>
    intro u stack st b st' hrun
    simp [dfs] at hrun
  | succ f ih =>
    intro u stack st b st' hrun hu
    simp only [dfs] at hrun
    cases hlk : ts.tasks.lookup u with
    | none => rw [hlk] at hrun; simp at hrun
    | some t =>
      rw [hlk] at hrun
      have hloop := dfsLoop_spec ts (dfs ts f) ih u t hlk t.deps (stack ++ [u])
        _ b st' hrun (by simp) (by intro w hw hwd; exact absurd hw hwd)
      obtain ⟨hlb, hls, hle, hlr, hlt⟩ := hloop
      refine ⟨?_, ?_, hle, ?_, ?_⟩
      · intro n hn
        have hnu : n ≠ u := by
          intro hh
          rw [hh, hu] at hn
          simp at hn
        exact hlb n (by simp [hnu, hn])
      · intro n hn
        by_cases hnu : n = u
        · exact hls n (by simp [hnu])
        · exact hls n (by simpa [hnu] using hn)
      · intro r hr
        refine hlr r ?_
        intro w t2 hw hlk2 v hv
        have hwu : w ≠ u := by
          intro hh
          rw [hh] at hw
          simp at hw
        have hwb : st.color w = some Color.BLACK := by simpa [hwu] using hw
        obtain ⟨hvb, hvr⟩ := hr w t2 hwb hlk2 v hv
        have hvu : v ≠ u := by
          intro hh
          rw [hh, hu] at hvb
          simp at hvb
        exact ⟨by simp [hvu, hvb], hvr⟩
      · intro hb
        obtain ⟨hlg, hlu⟩ := hlt hb
        refine ⟨?_, hlu⟩
        intro n
        by_cases hnu : n = u
        · subst hnu
          rw [hlu, hu]
          simp
        · rw [hlg n hnu]
          simp [hnu]

theorem validOuter_spec (ts : TaskSet) :
    ∀ names st st', validOuter ts names st = some st' →
      (∀ n, st.color n = some Color.BLACK → st'.color n = some Color.BLACK) ∧
      (∀ n, (st.color n).isSome → (st'.color n).isSome) ∧
      (∃ tl, st'.errors = st.errors ++ tl) ∧
      (∀ r, BlackInv ts r st → ∃ r2, BlackInv ts r2 st') := by
  intro names
  induction names with
  | nil =>
    intro st st' hrun
    simp only [validOuter, Option.some.injEq] at hrun
    subst hrun
    exact ⟨fun n hn => hn, fun n hn => hn, ⟨[], by simp⟩, fun r hr => ⟨r, hr⟩⟩
  | cons n rest ih =>
    intro st st' hrun
    simp only [validOuter] at hrun
    cases hcn : st.color n with
    | none => rw [hcn] at hrun; simp at hrun
    | some c =>
      rw [hcn] at hrun
      cases c with
      | WHITE =>
        cases hd : dfs ts (dfsFuel ts) n [] st with
        | none => rw [hd] at hrun; simp at hrun
        | some p =>
          obtain ⟨bd, st2⟩ := p
          rw [hd] at hrun
          have hrun2 : validOuter ts rest st2 = some st' := hrun
          have hdp := dfs_spec ts (dfsFuel ts) n [] st bd st2 hd hcn
          obtain ⟨hdb, hds, hde, hdr, _⟩ := hdp
          obtain ⟨hib, his, hie, hir⟩ := ih st2 st' hrun2
          refine ⟨fun m hm => hib m (hdb m hm), fun m hm => his m (hds m hm), ?_, ?_⟩
          · obtain ⟨tl1, htl1, _⟩ := hde
            obtain ⟨tl2, htl2⟩ := hie
            exact ⟨tl1 ++ tl2, by rw [htl2, htl1, List.append_assoc]⟩
          · intro r hr
            obtain ⟨r2, hr2⟩ := hdr r hr
            exact hir r2 hr2
      | GRAY => exact ih st st' hrun
      | BLACK => exact ih st st' hrun

theorem validOuter_black (ts : TaskSet) :
    ∀ names st st', validOuter ts names st = some st' →
      st'.errors = st.errors →
      (∀ n, st.color n ≠ some Color.GRAY) →
      ∀ n ∈ names, (st.color n).isSome → st'.color n = some Color.BLACK := by
  intro names
  induction names with
  | nil =>
    intro st st' _ _ _ n hn
    simp at hn
  | cons m rest ih =>
    intro st st' hrun herr hgray n hn hns
    simp only [validOuter] at hrun
    cases hcm : st.color m with
    | none => rw [hcm] at hrun; simp at hrun
    | some c =>
      rw [hcm] at hrun
      cases c with
      | WHITE =>
        cases hd : dfs ts (dfsFuel ts) m [] st with
        | none => rw [hd] at hrun; simp at hrun
        | some p =>
          obtain ⟨bd, st2⟩ := p
          rw [hd] at hrun
          have hrun2 : validOuter ts rest st2 = some st' := hrun
          have hdp := dfs_spec ts (dfsFuel ts) m [] st bd st2 hd hcm
          obtain ⟨hdb, hds, hde, hdr, hdt⟩ := hdp
          obtain ⟨hrb, hrs, hre, _⟩ := validOuter_spec ts rest st2 st' hrun2
          -- no error was appended anywhere
          obtain ⟨tl1, htl1, hne1⟩ := hde
          obtain ⟨tl2, htl2⟩ := hre
          have htlnil : tl1 = [] ∧ tl2 = [] := by
            have : st.errors = st.errors ++ tl1 ++ tl2 := by
              rw [← htl1, ← htl2, herr]
            have hlen := congrArg List.length this
            simp at hlen
            exact hlen
          have hbd : bd = true := by
            cases bd with
            | true => rfl
            | false => exact absurd (hne1 rfl) (by simp [htlnil.1])
          obtain ⟨hdg, hdu⟩ := hdt hbd
          have hgray2 : ∀ k, st2.color k ≠ some Color.GRAY := by
            intro k hk
            exact hgray k ((hdg k).mp hk)
          have herr2 : st'.errors = st2.errors := by
            rw [htl2, htlnil.2, List.append_nil]
          rcases List.mem_cons.1 hn with h1 | h1
          · subst h1
            exact hrb n hdu
          · exact ih st2 st' hrun2 herr2 hgray2 n h1 (hds n hns)
      | GRAY => exact absurd hcm (hgray m)
      | BLACK =>
        have hrun2 : validOuter ts rest st = some st' := hrun
        rcases List.mem_cons.1 hn with h1 | h1
        · subst h1
          exact (validOuter_spec ts rest st st' hrun2).1 _ hcm
        · exact ih st st' hrun2 herr hgray n h1 hns

/-- A successful, error-free validation implies the per-task checks found
nothing and the DFS appended nothing. -/
theorem validate_nil_decompose {ts : TaskSet} (hV : validate_tasks ts = some []) :
    perTaskErrors ts = [] ∧
    ∃ st', validOuter ts (keysOf ts)
        { color := fun n => if n ∈ keysOf ts then some Color.WHITE else none,
          errors := perTaskErrors ts } = some st' ∧ st'.errors = [] := by
  simp only [validate_tasks] at hV
  cases hrun : validOuter ts (keysOf ts)
      { color := fun n => if n ∈ keysOf ts then some Color.WHITE else none,
        errors := perTaskErrors ts } with
  | none => rw [hrun] at hV; simp at hV
  | some st' =>
    rw [hrun] at hV
    simp only [Option.map_some', Option.some.injEq] at hV
    have hsp := validOuter_spec ts (keysOf ts) _ st' hrun
    obtain ⟨_, _, ⟨tl, htl⟩, _⟩ := hsp
    have hnil : perTaskErrors ts = [] ∧ tl = [] := by
      have : perTaskErrors ts ++ tl = [] := by rw [← htl]; exact hV
      simpa using this
    exact ⟨hnil.1, st', rfl, hV⟩

/-- Error-free validation yields a rank function strictly decreasing along
dependency edges: the dependency relation is acyclic. -/
theorem validate_rank {ts : TaskSet} (hV : validate_tasks ts = some []) :
    ∃ r : String → Nat, ∀ u t, ts.tasks.lookup u = some t →
      ∀ v ∈ t.deps, r v < r u := by
  obtain ⟨hpt, st', hrun, herr⟩ := validate_nil_decompose hV
  have hb := validOuter_black ts (keysOf ts) _ st' hrun
    (by rw [herr]; exact hpt.symm)
    (by
      intro n
      show (if n ∈ keysOf ts then some Color.WHITE else none) ≠ some Color.GRAY
      split <;> simp)
  obtain ⟨_, _, _, hrk⟩ := validOuter_spec ts (keysOf ts) _ st' hrun
  obtain ⟨r, hr⟩ := hrk (fun _ => 0) (by
    intro u t hu
    simp only [hpt] at hu
    split at hu <;> simp at hu)
  refine ⟨r, ?_⟩
  intro u t hlk v hv
  have hu : u ∈ keysOf ts := by
    have hs : (ts.tasks.lookup u).isSome := by simp [hlk]
    exact (lookup_isSome_iff ts.tasks u).mp hs
  have hblack : st'.color u = some Color.BLACK := by
    refine hb u hu ?_
    simp [hu]
  exact (hr u t hblack hlk v hv).2

/-- Empty per-task error list means: durations are non-negative, no
self-dependency, and every dependency is a declared key. -/
theorem perTask_nil_facts {ts : TaskSet} (h : perTaskErrors ts = []) :
    ∀ p ∈ ts.tasks, 0 ≤ (p.2).duration_seconds ∧
      ∀ d ∈ (p.2).deps, d ≠ (p.2).name ∧ d ∈ keysOf ts := by
  intro p hp
  unfold perTaskErrors at h
  rw [List.flatMap_eq_nil_iff] at h
  have hte := h p hp
  unfold taskErrs at hte
  rw [List.append_eq_nil] at hte
  obtain ⟨h1, h2⟩ := hte
  constructor
  · by_contra hd
    push_neg at hd
    rw [if_pos hd] at h1
    simp at h1
  · intro d hd
    rw [List.flatMap_eq_nil_iff] at h2
    have h3 := h2 d hd
    rw [List.append_eq_nil] at h3
    obtain ⟨h4, h5⟩ := h3
    constructor
    · intro hh
      rw [if_pos hh] at h4
      simp at h4
    · by_contra hh
      rw [if_neg hh] at h5
      simp at h5

/-! ### Kahn topological-sorting invariants -/

theorem depsOf_eq {ts : TaskSet} {k : String} {t : Task}
    (hU : (keysOf ts).Nodup) (h : (k, t) ∈ ts.tasks) : depsOf ts k = t.deps := by
  unfold depsOf
  rw [mem_lookup_of_nodup hU h]

theorem indexOf_append_self {l : List String} {u : String} (h : u ∉ l) :
    (l ++ [u]).indexOf u = l.length := by
  induction l with
  | nil => simp
  | cons a t ih =>
    have ha : a ≠ u := by rintro rfl; exact h (by simp)
    simp only [List.cons_append, List.indexOf_cons_ne _ ha, List.length_cons]
    rw [ih (fun hh => h (List.mem_cons_of_mem _ hh))]

theorem nodup_subset_length {l1 l2 : List String} (h1 : l1.Nodup) (hs : l1 ⊆ l2) :
    l1.length ≤ l2.length :=
  (h1.subperm hs).length_le

/-- With distinct keys and `name = key`, exactly one entry of the association
list has a given name. -/
theorem filter_name_unique {l : List (String × Task)} {k : String} {t : Task}
    (hN : ∀ p ∈ l, (p.2).name = p.1) (hU : (l.map Prod.fst).Nodup)
    (h : (k, t) ∈ l) :
    l.filter (fun p => decide ((p.2).name = k)) = [(k, t)] := by
  induction l with
  | nil => simp at h
  | cons p rest ih =>
    obtain ⟨a, b⟩ := p
    simp only [List.map_cons, List.nodup_cons] at hU
    have hab : b.name = a := hN (a, b) (by simp)
    rcases List.mem_cons.1 h with h1 | h1
    · rw [Prod.mk.injEq] at h1
      obtain ⟨rfl, rfl⟩ := h1
      rw [List.filter_cons_of_pos (by simp [hab])]
      have : rest.filter (fun p => decide ((p.2).name = k)) = [] := by
        rw [List.filter_eq_nil_iff]
        intro p hp
        have := hN p (List.mem_cons_of_mem _ hp)
        simp only [this, decide_eq_true_eq]
        intro hh
        exact hU.1 (by rw [← hh]; exact mem_keys_of_mem hp)
      rw [this]
    · have hak : a ≠ k := by
        rintro rfl
        exact hU.1 (mem_keys_of_mem h1)
      rw [List.filter_cons_of_neg (by simp [hab, hak])]
      exact ih (fun p hp => hN p (List.mem_cons_of_mem _ hp)) hU.2 h1

/-- `bumpIndeg` adds the number of dependency occurrences to the task's cell. -/
theorem bumpIndeg_spec (nm : String) :
    ∀ (ds : List String) (ind : String → Option Int) (c : Int),
      ind nm = some c →
      ∃ ind2, bumpIndeg nm ds ind = some ind2 ∧
        ∀ n, ind2 n = if n = nm then some (c + (ds.length : Int)) else ind n := by
  intro ds
  induction ds with
  | nil =>
    intro ind c hc
    refine ⟨ind, rfl, ?_⟩
    intro n
    by_cases hn : n = nm
    · subst hn; simp [hc]
    · simp [hn]
  | cons d rest ih =>
    intro ind c hc
    simp only [bumpIndeg, hc]
    obtain ⟨ind2, hrun, hpt⟩ := ih (fun n => if n = nm then some (c + 1) else ind n)
      (c + 1) (by simp)
    refine ⟨ind2, hrun, ?_⟩
    intro n
    rw [hpt n]
    by_cases hn : n = nm
    · rw [if_pos hn, if_pos hn, List.length_cons]
      congr 1
      push_cast
      ring
    · rw [if_neg hn, if_neg hn, if_neg hn]

/-- `buildIndeg` over a list with distinct names adds each task's dependency
count to its own cell and touches nothing else. -/
theorem buildIndeg_spec :
    ∀ (l : List (String × Task)) (ind : String → Option Int),
      (∀ p ∈ l, (ind ((p.2).name)).isSome) →
      (∀ p ∈ l, (p.2).name = p.1) →
      ((l.map Prod.fst).Nodup) →
      ∃ ind2, buildIndeg l ind = some ind2 ∧
        (∀ k t, (k, t) ∈ l → ∃ c, ind k = some c ∧
          ind2 k = some (c + (t.deps.length : Int))) ∧
        (∀ n, n ∉ l.map Prod.fst → ind2 n = ind n) := by
  intro l
  induction l with
  | nil =>
    intro ind _ _ _
    exact ⟨ind, rfl, by simp, fun n _ => rfl⟩
  | cons p rest ih =>
    intro ind hsupp hN hU
    obtain ⟨a, b⟩ := p
    have hname : b.name = a := hN (a, b) (by simp)
    simp only [List.map_cons, List.nodup_cons] at hU
    obtain ⟨c, hc⟩ := Option.isSome_iff_exists.1 (hsupp (a, b) (by simp))
    obtain ⟨ind1, hb1, hpt1⟩ := bumpIndeg_spec b.name b.deps ind c hc
    simp only [buildIndeg, hb1]
    obtain ⟨ind2, hrun, hmem, huntouched⟩ := ih ind1
      (by
        intro p hp
        rw [hpt1]
        by_cases hpn : (p.2).name = b.name
        · rw [if_pos hpn]; simp
        · rw [if_neg hpn]
          exact hsupp p (List.mem_cons_of_mem _ hp))
      (fun p hp => hN p (List.mem_cons_of_mem _ hp)) hU.2
    refine ⟨ind2, hrun, ?_, ?_⟩
    · intro k t hkt
      rcases List.mem_cons.1 hkt with h1 | h1
      · rw [Prod.mk.injEq] at h1
        obtain ⟨rfl, rfl⟩ := h1
        have hknotin : k ∉ rest.map Prod.fst := hU.1
        refine ⟨c, hname ▸ hc, ?_⟩
        rw [huntouched k hknotin, hpt1 k]
        rw [if_pos hname.symm]
      · obtain ⟨c2, hc2, hres⟩ := hmem k t h1
        have hka : k ≠ a := by
          rintro rfl
          exact hU.1 (mem_keys_of_mem h1)
        refine ⟨c2, ?_, hres⟩
        rw [hpt1 k] at hc2
        rw [if_neg (by rw [hname]; exact hka)] at hc2
        exact hc2
    · intro n hn
      simp only [List.map_cons, List.mem_cons] at hn
      push_neg at hn
      rw [huntouched n hn.2, hpt1 n, if_neg (by rw [hname]; exact hn.1)]

/-- `addAdjOne` appends the task's name once per occurrence of each key among
its dependencies. -/
theorem addAdjOne_spec (nm : String) :
    ∀ (ds : List String) (adj : String → Option (List String)),
      (∀ d ∈ ds, (adj d).isSome) →
      ∃ adj2, addAdjOne nm ds adj = some adj2 ∧
        (∀ u, (adj2 u).isSome ↔ (adj u).isSome) ∧
        (∀ u lu, adj u = some lu → ∃ lu2, adj2 u = some lu2 ∧
          ∀ m, lu2.count m = lu.count m + (if m = nm then ds.count u else 0)) := by
  intro ds
  induction ds with
  | nil =>
    intro adj _
    refine ⟨adj, rfl, fun u => Iff.rfl, ?_⟩
    intro u lu hu
    exact ⟨lu, hu, by simp⟩
  | cons d rest ih =>
    intro adj hsupp
    obtain ⟨l0, hl0⟩ := Option.isSome_iff_exists.1 (hsupp d (by simp))
    simp only [addAdjOne, hl0]
    obtain ⟨adj2, hrun, hiso, hcnt⟩ := ih
      (fun n => if n = d then some (l0 ++ [nm]) else adj n)
      (by
        intro e he
        by_cases hed : e = d
        · simp [hed]
        · simp only [if_neg hed]
          exact hsupp e (List.mem_cons_of_mem _ he))
    refine ⟨adj2, hrun, ?_, ?_⟩
    · intro u
      rw [hiso u]
      by_cases hud : u = d
      · subst hud
        simp [hl0]
      · simp [hud]
    · intro u lu hu
      by_cases hud : u = d
      · subst hud
        rw [hl0] at hu
        obtain rfl : l0 = lu := by injection hu
        obtain ⟨lu2, hlu2, hc⟩ := hcnt u (l0 ++ [nm]) (by simp)
        refine ⟨lu2, hlu2, ?_⟩
        intro m
        rw [hc m, List.count_append]
        by_cases hmn : m = nm
        · subst hmn
          have h1 : List.count m [m] = 1 := by simp
          have h2 : List.count u (u :: rest) = List.count u rest + 1 := by
            simp [List.count_cons]
          rw [if_pos rfl, if_pos rfl, h1, h2]
          omega
        · have h1 : List.count m [nm] = 0 := by simp [hmn]
          rw [if_neg hmn, if_neg hmn, h1]
      · obtain ⟨lu2, hlu2, hc⟩ := hcnt u lu (by simp [hud, hu])
        refine ⟨lu2, hlu2, ?_⟩
        intro m
        rw [hc m]
        have hcc : List.count u (d :: rest) = List.count u rest :=
          List.count_cons_of_ne hud _
        rw [hcc]

/-- `buildAdjRev` accumulates, for each key `u`, one entry of the dependent's
name per dependency occurrence. -/
theorem buildAdjRev_spec :
    ∀ (l : List (String × Task)) (adj : String → Option (List String)),
      (∀ p ∈ l, ∀ d ∈ (p.2).deps, (adj d).isSome) →
      ∃ adj2, buildAdjRev l adj = some adj2 ∧
        (∀ u, (adj2 u).isSome ↔ (adj u).isSome) ∧
        (∀ u lu, adj u = some lu → ∃ lu2, adj2 u = some lu2 ∧
          ∀ m, lu2.count m = lu.count m + cntDeps l u m) := by
  intro l
  induction l with
  | nil =>
    intro adj _
    refine ⟨adj, rfl, fun u => Iff.rfl, ?_⟩
    intro u lu hu
    exact ⟨lu, hu, by simp [cntDeps]⟩
  | cons p rest ih =>
    intro adj hsupp
    obtain ⟨adj1, h1run, h1iso, h1cnt⟩ :=
      addAdjOne_spec (p.2).name (p.2).deps adj (hsupp p (by simp))
    simp only [buildAdjRev, h1run]
    obtain ⟨adj2, hrun, hiso, hcnt⟩ := ih adj1
      (by
        intro q hq e he
        rw [h1iso e]
        exact hsupp q (List.mem_cons_of_mem _ hq) e he)
    refine ⟨adj2, hrun, fun u => (hiso u).trans (h1iso u), ?_⟩
    intro u lu hu
    obtain ⟨lu1, hlu1, hc1⟩ := h1cnt u lu hu
    obtain ⟨lu2, hlu2, hc2⟩ := hcnt u lu1 hlu1
    refine ⟨lu2, hlu2, ?_⟩
    intro m
    rw [hc2 m, hc1 m]
    have hstep : cntDeps (p :: rest) u m =
        (if m = (p.2).name then (p.2).deps.count u else 0) + cntDeps rest u m := by
      unfold cntDeps
      by_cases hm : (p.2).name = m
      · rw [List.filter_cons_of_pos (by simp [hm])]
        simp [hm.symm]
      · rw [List.filter_cons_of_neg (by simp [hm])]
        rw [if_neg (fun hh => hm hh.symm)]
        simp
    rw [hstep]
    ring

/-- `innerDec` decrements each cell once per occurrence and enqueues exactly
the names whose cell hits zero. -/
theorem innerDec_spec :
    ∀ (vs q : List String) (ind : String → Option Int),
      (∀ v ∈ vs, ∃ c, ind v = some c ∧ ((vs.count v : Int) ≤ c)) →
      ∃ q2 ind2, innerDec vs q ind = some (q2, ind2) ∧
        (∀ n, n ∉ vs → ind2 n = ind n) ∧
        (∀ n c, ind n = some c → ind2 n = some (c - (vs.count n : Int))) ∧
        ∃ newl, q2 = q ++ newl ∧ newl.Nodup ∧
          (∀ n, n ∈ newl ↔ ∃ c, ind n = some c ∧ c = (vs.count n : Int) ∧
            1 ≤ vs.count n) := by
  intro vs
  induction vs with
  | nil =>
    intro q ind _
    refine ⟨q, ind, rfl, fun n _ => rfl, ?_, [], by simp, by simp, ?_⟩
    · intro n c hc
      simp [hc]
    · intro n
      simp
  | cons v rest ih =>
    intro q ind hs
    obtain ⟨c, hc, hcle⟩ := hs v (by simp)
    have hcount : (v :: rest).count v = rest.count v + 1 := List.count_cons_self v rest
    have hccons : ∀ w, w ≠ v → (v :: rest).count w = rest.count w :=
      fun w hw => List.count_cons_of_ne hw rest
    have hrecpre : ∀ w ∈ rest,
        ∃ cw, (fun n => if n = v then some (c - 1) else ind n) w = some cw ∧
          ((rest.count w : Int) ≤ cw) := by
      intro w hw
      by_cases hwv : w = v
      · subst hwv
        refine ⟨c - 1, by simp, ?_⟩
        rw [hcount] at hcle
        push_cast at hcle ⊢
        omega
      · obtain ⟨cw, hcw, hcwle⟩ := hs w (List.mem_cons_of_mem _ hw)
        refine ⟨cw, by simp only [if_neg hwv]; exact hcw, ?_⟩
        rw [hccons w hwv] at hcwle
        exact hcwle
    simp only [innerDec, hc]
    by_cases hk : c - 1 = 0
    · have hc1 : c = 1 := by omega
      have hvrest : rest.count v = 0 := by
        rw [hcount] at hcle
        push_cast at hcle
        omega
      have hvnotin : v ∉ rest := List.count_eq_zero.1 hvrest
      rw [if_pos hk]
      obtain ⟨q2, ind2, hrun, hut, hdec, newl, hq2, hnd, hchar⟩ := ih (q ++ [v])
        (fun n => if n = v then some (c - 1) else ind n) hrecpre
      refine ⟨q2, ind2, hrun, ?_, ?_, v :: newl, ?_, ?_, ?_⟩
      · intro n hn
        simp only [List.mem_cons] at hn
        push_neg at hn
        rw [hut n hn.2, if_neg hn.1]
      · intro n c0 hc0
        by_cases hnv : n = v
        · subst hnv
          rw [hc] at hc0
          obtain rfl : c = c0 := by injection hc0
          have := hdec n (c - 1) (by simp)
          rw [hvrest] at this
          rw [this, hcount, hvrest]
          congr 1
          omega
        · have := hdec n c0 (by simp only [if_neg hnv]; exact hc0)
          rw [this, hccons n hnv]
      · rw [hq2, List.append_assoc]
        rfl
      · refine List.nodup_cons.2 ⟨?_, hnd⟩
        intro hv
        obtain ⟨c2, hc2, hc2eq, hc2ge⟩ := (hchar v).1 hv
        omega
      · intro n
        simp only [List.mem_cons]
        by_cases hnv : n = v
        · subst hnv
          simp only [true_or, true_iff]
          refine ⟨c, hc, ?_, ?_⟩
          · rw [hcount, hvrest]
            omega
          · rw [hcount]
            omega
        · simp only [hnv, false_or]
          rw [hchar n]
          constructor
          · rintro ⟨c2, hc2, hc2eq, hc2ge⟩
            rw [if_neg hnv] at hc2
            exact ⟨c2, hc2, by rw [hccons n hnv]; exact hc2eq,
              by rw [hccons n hnv]; exact hc2ge⟩
          · rintro ⟨c2, hc2, hc2eq, hc2ge⟩
            exact ⟨c2, by simp only [if_neg hnv]; exact hc2, by rw [← hccons n hnv]; exact hc2eq,
              by rw [← hccons n hnv]; exact hc2ge⟩
    · rw [if_neg hk]
      obtain ⟨q2, ind2, hrun, hut, hdec, newl, hq2, hnd, hchar⟩ := ih q
        (fun n => if n = v then some (c - 1) else ind n) hrecpre
      refine ⟨q2, ind2, hrun, ?_, ?_, newl, hq2, hnd, ?_⟩
      · intro n hn
        simp only [List.mem_cons] at hn
        push_neg at hn
        rw [hut n hn.2, if_neg hn.1]
      · intro n c0 hc0
        by_cases hnv : n = v
        · subst hnv
          rw [hc] at hc0
          obtain rfl : c = c0 := by injection hc0
          have := hdec n (c - 1) (by simp)
          rw [this, hcount]
          congr 1
          omega
        · have := hdec n c0 (by simp only [if_neg hnv]; exact hc0)
          rw [this, hccons n hnv]
      · intro n
        rw [hchar n]
        by_cases hnv : n = v
        · subst hnv
          constructor
          · rintro ⟨c2, hc2, hc2eq, hc2ge⟩
            simp only [if_pos rfl] at hc2
            obtain rfl : c - 1 = c2 := by injection hc2
            refine ⟨c, hc, ?_, ?_⟩
            · rw [hcount]
              push_cast
              omega
            · rw [hcount]
              omega
          · rintro ⟨c2, hc2, hc2eq, _⟩
            rw [hc] at hc2
            obtain rfl : c = c2 := by injection hc2
            rw [hcount] at hc2eq
            refine ⟨c - 1, by simp, by push_cast at hc2eq ⊢; omega, ?_⟩
            push_cast at hc2eq
            omega
        · constructor
          · rintro ⟨c2, hc2, hc2eq, hc2ge⟩
            rw [if_neg hnv] at hc2
            exact ⟨c2, hc2, by rw [hccons n hnv]; exact hc2eq,
              by rw [hccons n hnv]; exact hc2ge⟩
          · rintro ⟨c2, hc2, hc2eq, hc2ge⟩
            exact ⟨c2, by simp only [if_neg hnv]; exact hc2, by rw [← hccons n hnv]; exact hc2eq,
              by rw [← hccons n hnv]; exact hc2ge⟩

/-- Counting helper: all out-of-`order` elements equal `u` iff the
out-of-`order` part has exactly `count u` elements (for `u ∉ order`). -/
theorem filter_notin_eq_count_iff {l order : List String} {u : String}
    (hu : u ∉ order) :
    ((l.filter (fun d => !decide (d ∈ order))).length = l.count u ↔
      ∀ d ∈ l, d ∉ order → d = u) := by
  have hcf : (l.filter (fun d => !decide (d ∈ order))).count u = l.count u :=
    List.count_filter (by simp [hu])
  constructor
  · intro hlen d hd hdo
    have hall := List.count_eq_length.1 (by rw [hcf, ← hlen])
    exact (hall d (List.mem_filter.2 ⟨hd, by simp [hdo]⟩)).symm
  · intro hall
    rw [← hcf]
    symm
    rw [List.count_eq_length]
    intro b hb
    obtain ⟨hbl, hbo⟩ := List.mem_filter.1 hb
    exact (hall b hbl (by simpa using hbo)).symm

/-- Counting helper: `count u l` is at most the number of out-of-`order`
elements of `l` (for `u ∉ order`). -/
theorem count_le_filter_notin {l order : List String} {u : String}
    (hu : u ∉ order) :
    l.count u ≤ (l.filter (fun d => !decide (d ∈ order))).length := by
  have hcf : (l.filter (fun d => !decide (d ∈ order))).count u = l.count u :=
    List.count_filter (by simp [hu])
  rw [← hcf]
  exact List.count_le_length _ _

/-- Counting helper: enlarging `order` by a fresh `u` grows the in-`order`
count of any list by exactly `count u`. -/
theorem filter_mem_append_single {l order : List String} {u : String}
    (hu : u ∉ order) :
    (l.filter (fun d => decide (d ∈ order ++ [u]))).length =
      (l.filter (fun d => decide (d ∈ order))).length + l.count u := by
  induction l with
  | nil => simp
  | cons d t ih =>
    by_cases hdu : d = u
    · subst hdu
      rw [List.filter_cons_of_pos (by simp), List.filter_cons_of_neg (by simp [hu]),
        List.count_cons_self]
      simp only [List.length_cons]
      omega
    · have hcc : (d :: t).count u = t.count u := by
        rw [List.count_cons_of_ne (fun hh => hdu hh.symm) t]
      by_cases hdo : d ∈ order
      · rw [List.filter_cons_of_pos (by simp [hdo]), List.filter_cons_of_pos (by simp [hdo]),
          hcc]
        simp only [List.length_cons]
        omega
      · rw [List.filter_cons_of_neg (by simp [hdo, hdu]),
          List.filter_cons_of_neg (by simp [hdo]), hcc]
        exact ih

/-- When the worklist is exhausted, the rank function forces every key to have
been output: a missing key would have a missing dependency of smaller rank,
ad infinitum. -/
theorem topoLoop_complete (ts : TaskSet) (r : String → Nat)
    (hdang : ∀ n, ∀ d ∈ depsOf ts n, d ∈ keysOf ts)
    (hrk : ∀ n, ∀ v ∈ depsOf ts n, r v < r n)
    (order : List String)
    (h3 : ∀ n ∈ keysOf ts, (n ∈ order ↔ ∀ d ∈ depsOf ts n, d ∈ order)) :
    ∀ x ∈ keysOf ts, x ∈ order := by
  have main : ∀ k n, n ∈ keysOf ts → r n < k → n ∈ order := by
    intro k
    induction k with
    | zero => intro n _ h; omega
    | succ k ihk =>
      intro n hn hrn
      by_contra hno
      have hnall : ¬ (∀ d ∈ depsOf ts n, d ∈ order) :=
        fun hall => hno ((h3 n hn).2 hall)
      push_neg at hnall
      obtain ⟨d, hd, hdo⟩ := hnall
      have hrd := hrk n d hd
      exact hdo (ihk d (hdang n d hd) (by omega))
  intro x hx
  exact main (r x + 1) x hx (Nat.lt_succ_self _)

/-- The empty-worklist exit of `topoLoop`. -/
theorem topoLoop_done (ts : TaskSet) (adj : String → Option (List String))
    (r : String → Nat)
    (hdang : ∀ n, ∀ d ∈ depsOf ts n, d ∈ keysOf ts)
    (hrk : ∀ n, ∀ v ∈ depsOf ts n, r v < r n)
    (fuel : Nat) (order : List String) (ind : String → Option Int)
    (h1 : order.Nodup) (h2 : ∀ x ∈ order, x ∈ keysOf ts)
    (h3 : ∀ n ∈ keysOf ts, (n ∈ order ↔ ∀ d ∈ depsOf ts n, d ∈ order))
    (h5 : ∀ n ∈ order, ∀ d ∈ depsOf ts n, order.indexOf d < order.indexOf n) :
    ∃ ord2, topoLoop adj fuel [] order ind = some ord2 ∧
      ord2.Nodup ∧ (∀ x, x ∈ ord2 ↔ x ∈ keysOf ts) ∧
      (∀ n ∈ ord2, ∀ d ∈ depsOf ts n, ord2.indexOf d < ord2.indexOf n) := by
  refine ⟨order, by cases fuel <;> rfl, h1, ?_, h5⟩
  intro x
  exact ⟨fun hx => h2 x hx, fun hx => topoLoop_complete ts r hdang hrk order h3 x hx⟩

/-- Main invariant-preservation argument for the Kahn worklist loop. -/
theorem topoLoop_spec (ts : TaskSet)
    (adj : String → Option (List String))
    (hadj : ∀ u ∈ keysOf ts, ∃ lu, adj u = some lu ∧
      ∀ m, lu.count m = (depsOf ts m).count u)
    (hdang : ∀ n, ∀ d ∈ depsOf ts n, d ∈ keysOf ts)
    (r : String → Nat)
    (hrk : ∀ n, ∀ v ∈ depsOf ts n, r v < r n) :
    ∀ (fuel : Nat) (q order : List String) (ind : String → Option Int),
      (order ++ q).Nodup →
      (∀ x ∈ order ++ q, x ∈ keysOf ts) →
      (∀ n ∈ keysOf ts, (n ∈ order ++ q ↔ ∀ d ∈ depsOf ts n, d ∈ order)) →
      (∀ n, ind n = if n ∈ keysOf ts then
        some (((depsOf ts n).length : Int) -
          (((depsOf ts n).filter (fun d => decide (d ∈ order))).length : Int))
        else none) →
      (∀ n ∈ order, ∀ d ∈ depsOf ts n, order.indexOf d < order.indexOf n) →
      ((keysOf ts).length - order.length < fuel) →
      ∃ ord2, topoLoop adj fuel q order ind = some ord2 ∧
        ord2.Nodup ∧ (∀ x, x ∈ ord2 ↔ x ∈ keysOf ts) ∧
        (∀ n ∈ ord2, ∀ d ∈ depsOf ts n, ord2.indexOf d < ord2.indexOf n) := by
  intro fuel
  induction fuel with
  | zero =>
    intro q order ind h1 h2 h3 h4 h5 h6
    cases q with
    | nil =>
      exact topoLoop_done ts adj r hdang hrk 0 order ind (by simpa using h1)
        (by simpa using h2) (by simpa using h3) h5
    | cons u q2 => exact absurd h6 (Nat.not_lt_zero _)
  | succ f ihf =>
    intro q order ind h1 h2 h3 h4 h5 h6
    cases q with
    | nil =>
      exact topoLoop_done ts adj r hdang hrk (f + 1) order ind (by simpa using h1)
        (by simpa using h2) (by simpa using h3) h5
    | cons u q2 =>
      have hks_u : u ∈ keysOf ts := h2 u (by simp)
      obtain ⟨hno, hncons, hdisj⟩ := List.nodup_append.1 h1
      have hu_notin : u ∉ order := fun hu => hdisj hu (by simp)
      obtain ⟨vs, hvs, hvscnt⟩ := hadj u hks_u
      -- a member of `vs` is a declared key whose dependencies contain `u`
      have hvs_ks : ∀ v ∈ vs, v ∈ keysOf ts ∧ u ∈ depsOf ts v := by
        intro v hv
        have hposc : 0 < (depsOf ts v).count u := by
          rw [← hvscnt v]
          exact List.count_pos_iff.2 hv
        have hudep : u ∈ depsOf ts v := List.count_pos_iff.1 hposc
        have hne : depsOf ts v ≠ [] := by
          intro hh
          rw [hh] at hudep
          simp at hudep
        have hvks : v ∈ keysOf ts := by
          unfold depsOf at hne
          cases hlk : ts.tasks.lookup v with
          | none => rw [hlk] at hne; simp at hne
          | some t => exact (lookup_isSome_iff _ _).1 (by simp [hlk])
        exact ⟨hvks, hudep⟩
      have hpre : ∀ v ∈ vs, ∃ c, ind v = some c ∧ ((vs.count v : Int) ≤ c) := by
        intro v hv
        obtain ⟨hvks, _⟩ := hvs_ks v hv
        refine ⟨_, by rw [h4 v, if_pos hvks], ?_⟩
        have hsplit : (depsOf ts v).length =
            ((depsOf ts v).filter (fun d => decide (d ∈ order))).length +
            ((depsOf ts v).filter (fun d => !decide (d ∈ order))).length := by
          simpa using List.length_eq_length_filter_add
            (l := depsOf ts v) (fun d => decide (d ∈ order))
        have hle : (depsOf ts v).count u ≤
            ((depsOf ts v).filter (fun d => !decide (d ∈ order))).length :=
          count_le_filter_notin hu_notin
        rw [hvscnt v]
        omega
      obtain ⟨q3, ind2, hidrun, hut, hdec, newl, hq3, hnlnd, hchar⟩ :=
        innerDec_spec vs q2 ind hpre
      have hfresh : ∀ n ∈ newl, n ∈ keysOf ts ∧ n ∉ order ++ u :: q2 := by
        intro n hn
        obtain ⟨c, hc, hceq, hcge⟩ := (hchar n).1 hn
        have hnks : n ∈ keysOf ts := by
          by_contra hh
          rw [h4 n, if_neg hh] at hc
          simp at hc
        refine ⟨hnks, ?_⟩
        intro hmem
        have hall := (h3 n hnks).1 hmem
        have hcnt : 0 < (depsOf ts n).count u := by
          rw [← hvscnt n]
          omega
        exact hu_notin (hall u (List.count_pos_iff.1 hcnt))
      have hacteq : (order ++ [u]) ++ (q2 ++ newl) = (order ++ u :: q2) ++ newl := by
        simp
      have h1' : ((order ++ [u]) ++ (q2 ++ newl)).Nodup := by
        rw [hacteq]
        refine List.Nodup.append h1 hnlnd ?_
        intro a ha hanew
        exact (hfresh a hanew).2 ha
      have h2' : ∀ x ∈ (order ++ [u]) ++ (q2 ++ newl), x ∈ keysOf ts := by
        rw [hacteq]
        intro x hx
        rcases List.mem_append.1 hx with hx | hx
        · exact h2 x hx
        · exact (hfresh x hx).1
      have h3' : ∀ n ∈ keysOf ts,
          (n ∈ (order ++ [u]) ++ (q2 ++ newl) ↔
            ∀ d ∈ depsOf ts n, d ∈ order ++ [u]) := by
        intro n hnks
        rw [hacteq]
        have hsplit : (depsOf ts n).length =
            ((depsOf ts n).filter (fun d => decide (d ∈ order))).length +
            ((depsOf ts n).filter (fun d => !decide (d ∈ order))).length := by
          simpa using List.length_eq_length_filter_add
            (l := depsOf ts n) (fun d => decide (d ∈ order))
        constructor
        · intro hmem
          rcases List.mem_append.1 hmem with hmem | hnew
          · intro d hd
            exact List.mem_append_left _ ((h3 n hnks).1 hmem d hd)
          · obtain ⟨c, hc, hceq, hcge⟩ := (hchar n).1 hnew
            rw [h4 n, if_pos hnks] at hc
            obtain rfl : _ = c := by injection hc
            rw [hvscnt n] at hceq
            have hnot_eq : ((depsOf ts n).filter
                (fun d => !decide (d ∈ order))).length = (depsOf ts n).count u := by
              omega
            have hallu := (filter_notin_eq_count_iff hu_notin).1 hnot_eq
            intro d hd
            by_cases hdo : d ∈ order
            · exact List.mem_append_left _ hdo
            · rw [hallu d hd hdo]
              simp
        · intro hall
          by_cases hallin : ∀ d ∈ depsOf ts n, d ∈ order
          · exact List.mem_append_left _ ((h3 n hnks).2 hallin)
          · push_neg at hallin
            obtain ⟨d0, hd0, hd0o⟩ := hallin
            have hd0u : d0 = u := by
              rcases List.mem_append.1 (hall d0 hd0) with h | h
              · exact absurd h hd0o
              · simpa using h
            refine List.mem_append_right _ ?_
            rw [hchar n]
            have hallu2 : ∀ d ∈ depsOf ts n, d ∉ order → d = u := by
              intro d hd hdo
              rcases List.mem_append.1 (hall d hd) with h | h
              · exact absurd h hdo
              · simpa using h
            have hnot_eq := (filter_notin_eq_count_iff hu_notin).2 hallu2
            refine ⟨_, by rw [h4 n, if_pos hnks], ?_, ?_⟩
            · rw [hvscnt n]
              omega
            · rw [hvscnt n]
              have : 0 < (depsOf ts n).count u :=
                List.count_pos_iff.2 (hd0u ▸ hd0)
              omega
      have h4' : ∀ n, ind2 n = if n ∈ keysOf ts then
          some (((depsOf ts n).length : Int) -
            (((depsOf ts n).filter
              (fun d => decide (d ∈ order ++ [u]))).length : Int)) else none := by
        intro n
        by_cases hnks : n ∈ keysOf ts
        · rw [if_pos hnks]
          have hdecn := hdec n _ (by rw [h4 n, if_pos hnks])
          rw [hdecn, hvscnt n]
          congr 1
          have hgrow := filter_mem_append_single (l := depsOf ts n) hu_notin
          omega
        · rw [if_neg hnks]
          have hnvs : n ∉ vs := by
            intro hh
            obtain ⟨c, hc, _⟩ := hpre n hh
            rw [h4 n, if_neg hnks] at hc
            simp at hc
          rw [hut n hnvs, h4 n, if_neg hnks]
      have h5' : ∀ n ∈ order ++ [u], ∀ d ∈ depsOf ts n,
          (order ++ [u]).indexOf d < (order ++ [u]).indexOf n := by
        intro n hn d hd
        rcases List.mem_append.1 hn with hn | hn
        · have hnks : n ∈ keysOf ts := h2 n (List.mem_append_left _ hn)
          have hdo : d ∈ order :=
            (h3 n hnks).1 (List.mem_append_left _ hn) d hd
          rw [List.indexOf_append_of_mem hdo, List.indexOf_append_of_mem hn]
          exact h5 n hn d hd
        · have hnu : n = u := by simpa using hn
          subst hnu
          have hdo : d ∈ order := (h3 n hks_u).1 (by simp) d hd
          rw [List.indexOf_append_of_mem hdo, indexOf_append_self hu_notin]
          exact List.indexOf_lt_length.2 hdo
      have hlen_act : (order ++ u :: q2).length ≤ (keysOf ts).length :=
        nodup_subset_length h1 (fun x hx => h2 x hx)
      have h6' : (keysOf ts).length - (order ++ [u]).length < f := by
        simp only [List.length_append, List.length_cons, List.length_nil]
          at hlen_act h6 ⊢
        omega
      subst hq3
      obtain ⟨ord2, hloop, hc1, hc2, hc3⟩ :=
        ihf (q2 ++ newl) (order ++ [u]) ind2 h1' h2' h3' h4' h5' h6'
      refine ⟨ord2, ?_, hc1, hc2, hc3⟩
      have hstep : topoLoop adj (f + 1) (u :: q2) order ind =
          topoLoop adj f (q2 ++ newl) (order ++ [u]) ind2 := by
        show (match adj u with
              | none => none
              | some vs =>
                match innerDec vs q2 ind with
                | none => none
                | some (q3, ind3) => topoLoop adj f q3 (order ++ [u]) ind3) =
          topoLoop adj f (q2 ++ newl) (order ++ [u]) ind2
        rw [hvs]
        show (match innerDec vs q2 ind with
              | none => none
              | some (q3, ind3) => topoLoop adj f q3 (order ++ [u]) ind3) =
          topoLoop adj f (q2 ++ newl) (order ++ [u]) ind2
        rw [hidrun]
      rw [hstep]
      exact hloop

/-- Master theorem for `topo_order` on a validated task set with the dict
invariants (`name = key`, distinct keys): it succeeds and returns a
permutation of the keys in which every dependency precedes its dependent. -/
theorem topo_core (ts : TaskSet)
    (hN : ∀ p ∈ ts.tasks, (p.2).name = p.1)
    (hU : (keysOf ts).Nodup)
    (hD : ∀ p ∈ ts.tasks, ∀ d ∈ (p.2).deps, d ∈ keysOf ts)
    (r : String → Nat)
    (hr : ∀ u t, ts.tasks.lookup u = some t → ∀ v ∈ t.deps, r v < r u) :
    ∃ ord, topo_order ts = some ord ∧ ord.Nodup ∧
      (∀ x, x ∈ ord ↔ x ∈ keysOf ts) ∧
      ord.Perm (keysOf ts) ∧ ord.length = ts.tasks.length ∧
      (∀ n ∈ ord, ∀ d ∈ depsOf ts n, ord.indexOf d < ord.indexOf n) := by
  have hdang : ∀ n, ∀ d ∈ depsOf ts n, d ∈ keysOf ts := by
    intro n d hd
    unfold depsOf at hd
    cases hlk : ts.tasks.lookup n with
    | none => rw [hlk] at hd; simp at hd
    | some t =>
      rw [hlk] at hd
      exact hD (n, t) (lookup_mem hlk) d hd
  have hrk : ∀ n, ∀ v ∈ depsOf ts n, r v < r n := by
    intro n v hv
    unfold depsOf at hv
    cases hlk : ts.tasks.lookup n with
    | none => rw [hlk] at hv; simp at hv
    | some t =>
      rw [hlk] at hv
      exact hr n t hlk v hv
  -- the indegree table after construction
  obtain ⟨ind2, hindrun, hindmem, hinduntouched⟩ := buildIndeg_spec ts.tasks
    (fun n => if n ∈ keysOf ts then some 0 else none)
    (by
      intro p hp
      have hmem : (p.2).name ∈ keysOf ts := by
        rw [hN p hp]
        exact mem_keys_of_mem hp
      simp [hmem])
    hN hU
  have h4init : ∀ n, ind2 n = if n ∈ keysOf ts then
      some (((depsOf ts n).length : Int) -
        (((depsOf ts n).filter (fun d => decide (d ∈ ([] : List String)))).length : Int))
      else none := by
    intro n
    by_cases hnks : n ∈ keysOf ts
    · rw [if_pos hnks]
      obtain ⟨p, hp, hp1⟩ := List.mem_map.1 hnks
      have hp' : (n, p.2) ∈ ts.tasks := by
        rw [← hp1]
        exact hp
      obtain ⟨c, hc, hres⟩ := hindmem n p.2 hp'
      rw [if_pos hnks] at hc
      obtain rfl : (0 : Int) = c := by injection hc
      rw [hres, depsOf_eq hU hp']
      have hfil : ((p.2).deps.filter (fun d => decide (d ∈ ([] : List String)))) = [] := by
        simp
      rw [hfil]
      simp
    · rw [if_neg hnks, hinduntouched n hnks, if_neg hnks]
  -- the reverse adjacency after construction
  obtain ⟨adj2, hadjrun, hadjiso, hadjcnt⟩ := buildAdjRev_spec ts.tasks
    (fun n => if n ∈ keysOf ts then some [] else none)
    (by
      intro p hp d hd
      have hmem : d ∈ keysOf ts := hD p hp d hd
      simp [hmem])
  have hadj : ∀ u ∈ keysOf ts, ∃ lu, adj2 u = some lu ∧
      ∀ m, lu.count m = (depsOf ts m).count u := by
    intro u hu
    obtain ⟨lu2, hlu2, hcnt⟩ := hadjcnt u [] (by rw [if_pos hu])
    refine ⟨lu2, hlu2, ?_⟩
    intro m
    rw [hcnt m]
    simp only [List.count_nil, Nat.zero_add]
    by_cases hm : m ∈ keysOf ts
    · obtain ⟨p, hp, hp1⟩ := List.mem_map.1 hm
      have hp' : (m, p.2) ∈ ts.tasks := by
        rw [← hp1]
        exact hp
      unfold cntDeps
      rw [filter_name_unique hN hU hp']
      rw [depsOf_eq hU hp']
      simp
    · have hfil : ts.tasks.filter (fun p => decide ((p.2).name = m)) = [] := by
        rw [List.filter_eq_nil_iff]
        intro p hp
        rw [hN p hp]
        simp only [decide_eq_true_eq]
        intro hh
        exact hm (hh ▸ mem_keys_of_mem hp)
      unfold cntDeps
      rw [hfil]
      have hdm : depsOf ts m = [] := by
        unfold depsOf
        rw [lookup_eq_none_iff ts.tasks m |>.2 hm]
      rw [hdm]
      simp
  -- run the worklist loop
  have hkslen : (keysOf ts).length = ts.tasks.length := by
    unfold keysOf
    simp
  obtain ⟨ord, hloop, hnd, hext, hidx⟩ := topoLoop_spec ts adj2 hadj hdang r hrk
    (2 * ts.tasks.length + 1)
    ((keysOf ts).filter (fun n => decide (ind2 n = some 0))) [] ind2
    (by
      simp only [List.nil_append]
      exact hU.filter _)
    (by
      simp only [List.nil_append]
      intro x hx
      exact (List.mem_filter.1 hx).1)
    (by
      simp only [List.nil_append]
      intro n hnks
      rw [List.mem_filter]
      constructor
      · rintro ⟨-, hdz⟩
        simp only [decide_eq_true_eq] at hdz
        rw [h4init n, if_pos hnks] at hdz
        injection hdz with hdz
        have hfil : ((depsOf ts n).filter
            (fun d => decide (d ∈ ([] : List String)))) = [] := by simp
        rw [hfil] at hdz
        simp only [List.length_nil] at hdz
        have hlen0 : (depsOf ts n).length = 0 := by omega
        intro d hd
        rw [List.length_eq_zero.1 hlen0] at hd
        simp at hd
      · intro hall
        refine ⟨hnks, ?_⟩
        simp only [decide_eq_true_eq]
        rw [h4init n, if_pos hnks]
        have hnil : depsOf ts n = [] := by
          rw [List.eq_nil_iff_forall_not_mem]
          intro d hd
          simpa using hall d hd
        rw [hnil]
        simp)
    h4init
    (by simp)
    (by
      rw [hkslen]
      simp only [List.length_nil]
      omega)
  -- identify the computation with `topo_order`
  have hrun : topo_order ts = some ord := by
    show (match buildIndeg ts.tasks
        (fun n => if n ∈ keysOf ts then some 0 else none) with
      | none => none
      | some ind =>
        match buildAdjRev ts.tasks
            (fun n => if n ∈ keysOf ts then some [] else none) with
        | none => none
        | some adj => topoLoop adj (2 * ts.tasks.length + 1)
            ((keysOf ts).filter (fun n => decide (ind n = some 0))) [] ind) = some ord
    rw [hindrun]
    show (match buildAdjRev ts.tasks
        (fun n => if n ∈ keysOf ts then some [] else none) with
      | none => none
      | some adj => topoLoop adj (2 * ts.tasks.length + 1)
          ((keysOf ts).filter (fun n => decide (ind2 n = some 0))) [] ind2) = some ord
    rw [hadjrun]
    exact hloop
  refine ⟨ord, hrun, hnd, hext, ?_, ?_, hidx⟩
  · exact (List.perm_ext_iff_of_nodup hnd hU).2 hext
  · rw [((List.perm_ext_iff_of_nodup hnd hU).2 hext).length_eq, hkslen]

/-- Master theorem for `topo_order` on a validated task set: it succeeds and
produces a dependency-respecting permutation of the task names. -/
theorem topo_master (ts : TaskSet)
    (hN : ∀ p ∈ ts.tasks, (p.2).name = p.1)
    (hU : (keysOf ts).Nodup)
    (hV : validate_tasks ts = some []) :
    ∃ ord, topo_order ts = some ord ∧ ord.Nodup ∧
      (∀ x, x ∈ ord ↔ x ∈ keysOf ts) ∧
      ord.Perm (keysOf ts) ∧ ord.length = ts.tasks.length ∧
      (∀ n ∈ ord, ∀ d ∈ depsOf ts n, ord.indexOf d < ord.indexOf n) := by
  have hfacts := perTask_nil_facts (validate_nil_decompose hV).1
  obtain ⟨r, hr⟩ := validate_rank hV
  exact topo_core ts hN hU (fun p hp d hd => ((hfacts p hp).2 d hd).2) r hr

/-! ### Critical-path propagation invariants -/

theorem indexOf_append_not_mem {l1 l2 : List String} {a : String} (h : a ∉ l1) :
    (l1 ++ l2).indexOf a = l1.length + l2.indexOf a := by
  induction l1 with
  | nil => simp
  | cons b t ih =>
    have hb : b ≠ a := by rintro rfl; exact h (by simp)
    simp only [List.cons_append, List.indexOf_cons_ne _ hb, List.length_cons]
    rw [ih (fun hh => h (List.mem_cons_of_mem _ hh))]
    omega

theorem mem_done_of_indexOf_lt {done rest : List String} {n d : String}
    (hnd : (done ++ n :: rest).Nodup) (_hdmem : d ∈ done ++ n :: rest)
    (hidx : (done ++ n :: rest).indexOf d < (done ++ n :: rest).indexOf n) :
    d ∈ done := by
  obtain ⟨hd1, hd2, hdisj⟩ := List.nodup_append.1 hnd
  have hnnot : n ∉ done := fun hh => hdisj hh (by simp)
  have hidxn : (done ++ n :: rest).indexOf n = done.length := by
    rw [indexOf_append_not_mem hnnot, List.indexOf_cons_self]
    omega
  by_contra hno
  rw [indexOf_append_not_mem hno, hidxn] at hidx
  omega

theorem mapM_lookup_isSome {ef : List (String × Int)} :
    ∀ (ds : List String), (∀ d ∈ ds, (ef.lookup d).isSome) →
      ∃ l, ds.mapM (fun d => ef.lookup d) = some l ∧ l.length = ds.length := by
  intro ds
  induction ds with
  | nil => exact fun _ => ⟨[], by rw [List.mapM_nil]; rfl, rfl⟩
  | cons d rest ih =>
    intro hs
    obtain ⟨v, hv⟩ := Option.isSome_iff_exists.1 (hs d (by simp))
    obtain ⟨l, hl, hlen⟩ := ih (fun e he => hs e (List.mem_cons_of_mem _ he))
    refine ⟨v :: l, ?_, by simp [hlen]⟩
    rw [List.mapM_cons, hv, hl]
    rfl

theorem mapM_lookup_congr {ef ef2 : List (String × Int)} :
    ∀ (ds : List String), (∀ d ∈ ds, ef2.lookup d = ef.lookup d) →
      ds.mapM (fun d => ef2.lookup d) = ds.mapM (fun d => ef.lookup d) := by
  intro ds
  induction ds with
  | nil => intro h; rfl
  | cons d rest ih =>
    intro hs
    rw [List.mapM_cons, List.mapM_cons, hs d (by simp),
      ih (fun e he => hs e (List.mem_cons_of_mem _ he))]

theorem mapM_lookup_mem {ef : List (String × Int)} :
    ∀ (ds : List String) (l : List Int),
      ds.mapM (fun d => ef.lookup d) = some l →
      ∀ y ∈ l, ∃ d ∈ ds, ef.lookup d = some y := by
  intro ds
  induction ds with
  | nil =>
    intro l hl y hy
    rw [List.mapM_nil] at hl
    obtain rfl : [] = l := by injection hl
    simp at hy
  | cons d rest ih =>
    intro l hl y hy
    rw [List.mapM_cons] at hl
    cases hv : ef.lookup d with
    | none => rw [hv] at hl; simp at hl
    | some v =>
      rw [hv] at hl
      simp only [Option.bind_eq_bind, Option.some_bind] at hl
      cases hrest : rest.mapM (fun d => ef.lookup d) with
      | none => rw [hrest] at hl; simp at hl
      | some lr =>
        rw [hrest] at hl
        simp only [Option.bind_eq_bind, Option.some_bind] at hl
        obtain rfl : v :: lr = l := by injection hl
        rcases List.mem_cons.1 hy with h1 | h1
        · exact ⟨d, by simp, by rw [hv, h1]⟩
        · obtain ⟨e, he, hev⟩ := ih lr hrest y h1
          exact ⟨e, List.mem_cons_of_mem _ he, hev⟩

theorem mem_upsert {α : Type} {m : List (String × α)} {k : String} {v : α} {q : String × α}
    (h : q ∈ upsert m k v) : q ∈ m ∨ q = (k, v) := by
  unfold upsert at h
  split at h
  · obtain ⟨p, hp, hpq⟩ := List.mem_map.1 h
    by_cases hpk : p.1 = k
    · rw [if_pos hpk] at hpq
      exact Or.inr hpq.symm
    · rw [if_neg hpk] at hpq
      exact Or.inl (hpq ▸ hp)
  · rcases List.mem_append.1 h with h1 | h1
    · exact Or.inl h1
    · simp only [List.mem_singleton] at h1
      exact Or.inr h1

theorem foldl_rmax_mem : ∀ (xs : List Int) (a : Int), xs.foldl rmax a ∈ a :: xs := by
  intro xs
  induction xs with
  | nil => intro a; simp
  | cons x t ih =>
    intro a
    simp only [List.foldl_cons]
    rcases List.mem_cons.1 (ih (rmax a x)) with h1 | h1
    · rw [h1]
      unfold rmax
      split
      · simp
      · simp
    · simp [h1]

theorem pyMax_mem {l : List Int} {v : Int} (h : pyMax l = some v) : v ∈ l := by
  cases l with
  | nil => simp [pyMax] at h
  | cons x xs =>
    simp only [pyMax, Option.some.injEq] at h
    rw [← h]
    exact foldl_rmax_mem xs x

theorem pyMax_isSome {l : List Int} (h : l ≠ []) : ∃ v, pyMax l = some v := by
  cases l with
  | nil => exact absurd rfl h
  | cons x xs => exact ⟨_, rfl⟩

theorem mem_done_of_indexOf_lt_length {done rest2 : List String} {d : String}
    (_hmem : d ∈ done ++ rest2) (hidx : (done ++ rest2).indexOf d < done.length) :
    d ∈ done := by
  by_contra hno
  rw [indexOf_append_not_mem hno] at hidx
  omega

/-- Invariant preservation for the earliest-start/finish propagation loop:
processing the next name establishes the recurrence there and never disturbs
the already-processed ones (each name occurs once in the order). -/
theorem etrLoop_spec (ts : TaskSet) (ord : List String)
    (hndord : ord.Nodup)
    (hsub : ∀ x ∈ ord, x ∈ keysOf ts)
    (hcov : ∀ x ∈ keysOf ts, x ∈ ord)
    (hdang : ∀ n, ∀ d ∈ depsOf ts n, d ∈ keysOf ts)
    (hidx : ∀ n ∈ ord, ∀ d ∈ depsOf ts n, ord.indexOf d < ord.indexOf n) :
    ∀ (rest done : List String) (es ef : List (String × Int)),
      ord = done ++ rest →
      es.map Prod.fst = keysOf ts →
      ef.map Prod.fst = keysOf ts →
      (∀ k ∈ done, EtrRec ts es ef k) →
      ∃ es2 ef2, etrLoop ts rest es ef = some (es2, ef2) ∧
        es2.map Prod.fst = keysOf ts ∧ ef2.map Prod.fst = keysOf ts ∧
        ∀ k ∈ ord, EtrRec ts es2 ef2 k := by
  intro rest
  induction rest with
  | nil =>
    intro done es ef hord hes hef hrec
    refine ⟨es, ef, rfl, hes, hef, ?_⟩
    intro k hk
    rw [hord, List.append_nil] at hk
    exact hrec k hk
  | cons n rest2 ih =>
    intro done es ef hord hes hef hrec
    have hnord : n ∈ ord := by rw [hord]; simp
    have hnks : n ∈ keysOf ts := hsub n hnord
    obtain ⟨t, hlk⟩ := Option.isSome_iff_exists.1 ((lookup_isSome_iff _ _).2 hnks)
    have hdeps_eq : depsOf ts n = t.deps := by unfold depsOf; rw [hlk]
    have hndapp : (done ++ n :: rest2).Nodup := hord ▸ hndord
    have hnnotdone : n ∉ done := by
      intro hh
      obtain ⟨-, -, hdisj⟩ := List.nodup_append.1 hndapp
      exact hdisj hh (by simp)
    have hdepdone : ∀ d ∈ t.deps, d ∈ done := by
      intro d hd
      have hd' : d ∈ depsOf ts n := by rw [hdeps_eq]; exact hd
      have hdord : d ∈ ord := hcov d (hdang n d hd')
      have hidxd := hidx n hnord d hd'
      rw [hord] at hdord hidxd
      exact mem_done_of_indexOf_lt hndapp hdord hidxd
    have hdepsome : ∀ d ∈ t.deps, (ef.lookup d).isSome := by
      intro d hd
      have hdk : d ∈ keysOf ts := hdang n d (by rw [hdeps_eq]; exact hd)
      rw [← hef] at hdk
      exact (lookup_isSome_iff _ _).2 hdk
    have hesn : n ∈ es.map Prod.fst := by rw [hes]; exact hnks
    have hefn : n ∈ ef.map Prod.fst := by rw [hef]; exact hnks
    have hpreserve : ∀ (vs vf : Int) k, k ∈ done →
        EtrRec ts (upsert es n vs) (upsert ef n vf) k := by
      intro vs vf k hk
      obtain ⟨t2, hlk2, s, hs, hf, h0, hmax⟩ := hrec k hk
      have hkn : k ≠ n := fun hh => hnnotdone (hh ▸ hk)
      refine ⟨t2, hlk2, s, by rw [upsert_lookup_other _ hkn]; exact hs,
        by rw [upsert_lookup_other _ hkn]; exact hf, h0, ?_⟩
      intro hne2
      obtain ⟨l2, hl2, hm2⟩ := hmax hne2
      refine ⟨l2, ?_, hm2⟩
      rw [mapM_lookup_congr t2.deps ?_]
      · exact hl2
      · intro d hd
        have hd' : d ∈ depsOf ts k := by unfold depsOf; rw [hlk2]; exact hd
        have hdord : d ∈ ord := hcov d (hdang k d hd')
        have hkord : k ∈ ord := by
          rw [hord]
          exact List.mem_append_left _ hk
        have hidxd := hidx k hkord d hd'
        have hkidx : ord.indexOf k < done.length := by
          rw [hord, List.indexOf_append_of_mem hk]
          exact List.indexOf_lt_length.2 hk
        have hdlt : ord.indexOf d < done.length := lt_trans hidxd hkidx
        rw [hord] at hdord hdlt
        have hddone : d ∈ done := mem_done_of_indexOf_lt_length hdord hdlt
        have hdn : d ≠ n := fun hh => hnnotdone (hh ▸ hddone)
        exact upsert_lookup_other _ hdn
    have hord2 : ord = (done ++ [n]) ++ rest2 := by rw [hord]; simp
    cases hdeps : t.deps with
    | nil =>
      have hrun_eq : etrLoop ts (n :: rest2) es ef =
          etrLoop ts rest2 (upsert es n 0) (upsert ef n (0 + t.duration_seconds)) := by
        show (match ts.tasks.lookup n with
          | none => none
          | some t =>
            match t.deps with
            | [] => etrLoop ts rest2 (upsert es n 0) (upsert ef n (0 + t.duration_seconds))
            | _ :: _ =>
              match t.deps.mapM (fun d => ef.lookup d) with
              | none => none
              | some fs =>
                match pyMax fs with
                | none => none
                | some m =>
                  etrLoop ts rest2 (upsert es n m) (upsert ef n (m + t.duration_seconds))) =
          etrLoop ts rest2 (upsert es n 0) (upsert ef n (0 + t.duration_seconds))
        rw [hlk]
        show (match t.deps with
          | [] => etrLoop ts rest2 (upsert es n 0) (upsert ef n (0 + t.duration_seconds))
          | _ :: _ =>
            match t.deps.mapM (fun d => ef.lookup d) with
            | none => none
            | some fs =>
              match pyMax fs with
              | none => none
              | some m =>
                etrLoop ts rest2 (upsert es n m) (upsert ef n (m + t.duration_seconds))) =
          etrLoop ts rest2 (upsert es n 0) (upsert ef n (0 + t.duration_seconds))
        rw [hdeps]
      obtain ⟨es2, ef2, hrun, hes2, hef2, hrec2⟩ := ih (done ++ [n])
        (upsert es n 0) (upsert ef n (0 + t.duration_seconds)) hord2
        (by rw [upsert_map_fst_of_mem _ hesn, hes])
        (by rw [upsert_map_fst_of_mem _ hefn, hef])
        (by
          intro k hk
          rcases List.mem_append.1 hk with hk | hk
          · exact hpreserve 0 (0 + t.duration_seconds) k hk
          · obtain rfl : k = n := by simpa using hk
            refine ⟨t, hlk, 0, upsert_lookup_self _, upsert_lookup_self _,
              fun _ => rfl, ?_⟩
            intro hne
            exact absurd hdeps hne)
      exact ⟨es2, ef2, by rw [hrun_eq]; exact hrun, hes2, hef2, hrec2⟩
    | cons d0 ds0 =>
      have hne : t.deps ≠ [] := by rw [hdeps]; simp
      obtain ⟨l, hl, hlen⟩ := mapM_lookup_isSome t.deps hdepsome
      have hlne : l ≠ [] := by
        intro hh
        rw [hh] at hlen
        rw [hdeps] at hlen
        simp at hlen
      obtain ⟨m, hm⟩ := pyMax_isSome hlne
      have hl2 : (d0 :: ds0).mapM (fun d => ef.lookup d) = some l := by
        rw [← hdeps]
        exact hl
      have hrun_eq : etrLoop ts (n :: rest2) es ef =
          etrLoop ts rest2 (upsert es n m) (upsert ef n (m + t.duration_seconds)) := by
        show (match ts.tasks.lookup n with
          | none => none
          | some t =>
            match t.deps with
            | [] => etrLoop ts rest2 (upsert es n 0) (upsert ef n (0 + t.duration_seconds))
            | _ :: _ =>
              match t.deps.mapM (fun d => ef.lookup d) with
              | none => none
              | some fs =>
                match pyMax fs with
                | none => none
                | some m2 =>
                  etrLoop ts rest2 (upsert es n m2) (upsert ef n (m2 + t.duration_seconds))) =
          etrLoop ts rest2 (upsert es n m) (upsert ef n (m + t.duration_seconds))
        rw [hlk]
        show (match t.deps with
          | [] => etrLoop ts rest2 (upsert es n 0) (upsert ef n (0 + t.duration_seconds))
          | _ :: _ =>
            match t.deps.mapM (fun d => ef.lookup d) with
            | none => none
            | some fs =>
              match pyMax fs with
              | none => none
              | some m2 =>
                etrLoop ts rest2 (upsert es n m2) (upsert ef n (m2 + t.duration_seconds))) =
          etrLoop ts rest2 (upsert es n m) (upsert ef n (m + t.duration_seconds))
        rw [hdeps]
        show (match (d0 :: ds0).mapM (fun d => ef.lookup d) with
          | none => none
          | some fs =>
            match pyMax fs with
            | none => none
            | some m2 =>
              etrLoop ts rest2 (upsert es n m2) (upsert ef n (m2 + t.duration_seconds))) =
          etrLoop ts rest2 (upsert es n m) (upsert ef n (m + t.duration_seconds))
        rw [hl2]
        show (match pyMax l with
          | none => none
          | some m2 =>
            etrLoop ts rest2 (upsert es n m2) (upsert ef n (m2 + t.duration_seconds))) =
          etrLoop ts rest2 (upsert es n m) (upsert ef n (m + t.duration_seconds))
        rw [hm]
      obtain ⟨es2, ef2, hrun, hes2, hef2, hrec2⟩ := ih (done ++ [n])
        (upsert es n m) (upsert ef n (m + t.duration_seconds)) hord2
        (by rw [upsert_map_fst_of_mem _ hesn, hes])
        (by rw [upsert_map_fst_of_mem _ hefn, hef])
        (by
          intro k hk
          rcases List.mem_append.1 hk with hk | hk
          · exact hpreserve m (m + t.duration_seconds) k hk
          · obtain rfl : k = n := by simpa using hk
            refine ⟨t, hlk, m, upsert_lookup_self _, upsert_lookup_self _,
              fun hh => absurd hh hne, ?_⟩
            intro _
            refine ⟨l, ?_, hm⟩
            rw [mapM_lookup_congr t.deps ?_]
            · exact hl
            · intro d hd
              have hddone : d ∈ done := hdepdone d hd
              have hdn : d ≠ k := fun hh => hnnotdone (hh ▸ hddone)
              exact upsert_lookup_other _ hdn)
      exact ⟨es2, ef2, by rw [hrun_eq]; exact hrun, hes2, hef2, hrec2⟩

/-- One-step unfolding of `etrLoop`. -/
theorem etrLoop_cons (ts : TaskSet) (n : String) (rest : List String)
    (es ef : List (String × Int)) :
    etrLoop ts (n :: rest) es ef =
      match ts.tasks.lookup n with
      | none => none
      | some t =>
        match t.deps with
        | [] => etrLoop ts rest (upsert es n 0) (upsert ef n (0 + t.duration_seconds))
        | _ :: _ =>
          match t.deps.mapM (fun d => ef.lookup d) with
          | none => none
          | some fs =>
            match pyMax fs with
            | none => none
            | some m =>
              etrLoop ts rest (upsert es n m) (upsert ef n (m + t.duration_seconds)) :=
  rfl

/-- With non-negative durations, every earliest-start and earliest-finish
value produced by the propagation loop is non-negative. -/
theorem etrLoop_nonneg (ts : TaskSet)
    (hdur : ∀ p ∈ ts.tasks, 0 ≤ (p.2).duration_seconds) :
    ∀ (rest : List String) (es ef es2 ef2 : List (String × Int)),
      etrLoop ts rest es ef = some (es2, ef2) →
      (∀ q ∈ es, 0 ≤ q.2) → (∀ q ∈ ef, 0 ≤ q.2) →
      (∀ q ∈ es2, 0 ≤ q.2) ∧ (∀ q ∈ ef2, 0 ≤ q.2) := by
  intro rest
  induction rest with
  | nil =>
    intro es ef es2 ef2 hrun hes hef
    simp only [etrLoop, Option.some.injEq, Prod.mk.injEq] at hrun
    obtain ⟨h1, h2⟩ := hrun
    subst h1
    subst h2
    exact ⟨hes, hef⟩
  | cons n rest2 ih =>
    intro es ef es2 ef2 hrun hes hef
    have hup : ∀ (m : List (String × Int)) (v : Int), (∀ q ∈ m, 0 ≤ q.2) →
        0 ≤ v → ∀ q ∈ upsert m n v, 0 ≤ q.2 := by
      intro m v hm hv q hq
      rcases mem_upsert hq with h | h
      · exact hm q h
      · rw [h]
        exact hv
    rw [etrLoop_cons] at hrun
    split at hrun
    · exact absurd hrun (by simp)
    · rename_i t hlk
      have hdurt : 0 ≤ t.duration_seconds := hdur (n, t) (lookup_mem hlk)
      split at hrun
      · exact ih _ _ _ _ hrun (hup es 0 hes le_rfl)
          (hup ef (0 + t.duration_seconds) hef (by omega))
      · split at hrun
        · exact absurd hrun (by simp)
        · rename_i fs hl
          split at hrun
          · exact absurd hrun (by simp)
          · rename_i m hpm
            have hm0 : 0 ≤ m := by
              obtain ⟨d, _, hdl⟩ := mapM_lookup_mem _ fs hl m (pyMax_mem hpm)
              exact hef (d, m) (lookup_mem hdl)
            exact ih _ _ _ _ hrun (hup es m hes hm0)
              (hup ef (m + t.duration_seconds) hef (by omega))

/-- A validated task set has no dangling dependencies. -/
theorem validate_nil_dang {ts : TaskSet} (hV : validate_tasks ts = some []) :
    ∀ n, ∀ d ∈ depsOf ts n, d ∈ keysOf ts := by
  have hfacts := perTask_nil_facts (validate_nil_decompose hV).1
  intro n d hd
  unfold depsOf at hd
  cases hlk : ts.tasks.lookup n with
  | none => rw [hlk] at hd; simp at hd
  | some t =>
    rw [hlk] at hd
    exact ((hfacts (n, t) (lookup_mem hlk)).2 d hd).2

/-- Master theorem for `expected_total_runtime` on a validated non-empty task
set: it succeeds, the start/finish tables are keyed by the task names, the
makespan is the Python max of the finish values, and every task satisfies the
earliest start/finish recurrence. -/
theorem etr_core (ts : TaskSet)
    (hN : ∀ p ∈ ts.tasks, (p.2).name = p.1)
    (hU : (keysOf ts).Nodup)
    (hD : ∀ p ∈ ts.tasks, ∀ d ∈ (p.2).deps, d ∈ keysOf ts)
    (r : String → Nat)
    (hr : ∀ u t, ts.tasks.lookup u = some t → ∀ v ∈ t.deps, r v < r u)
    (hne : ts.tasks ≠ []) :
    ∃ mk es ef, expected_total_runtime ts = some (mk, es, ef) ∧
      es.map Prod.fst = keysOf ts ∧ ef.map Prod.fst = keysOf ts ∧
      pyMax (ef.map Prod.snd) = some mk ∧
      ∀ p ∈ ts.tasks, ∃ s, es.lookup p.1 = some s ∧
        ef.lookup p.1 = some (s + (p.2).duration_seconds) ∧
        ((p.2).deps = [] → s = 0) ∧
        ((p.2).deps ≠ [] → ∃ l, (p.2).deps.mapM (fun d => ef.lookup d) = some l ∧
          pyMax l = some s) := by
  obtain ⟨ord, hto, hnd, hext, hperm, hlen, hidx⟩ := topo_core ts hN hU hD r hr
  have hdang : ∀ n, ∀ d ∈ depsOf ts n, d ∈ keysOf ts := by
    intro n d hd
    unfold depsOf at hd
    cases hlk : ts.tasks.lookup n with
    | none => rw [hlk] at hd; simp at hd
    | some t =>
      rw [hlk] at hd
      exact hD (n, t) (lookup_mem hlk) d hd
  obtain ⟨es2, ef2, hloop, hesk, hefk, hrec⟩ := etrLoop_spec ts ord hnd
    (fun x hx => (hext x).1 hx) (fun x hx => (hext x).2 hx) hdang hidx
    ord [] ((keysOf ts).map (fun n => (n, (0 : Int))))
    ((keysOf ts).map (fun n => (n, (0 : Int))))
    (by simp) (by simp [Function.comp_def]) (by simp [Function.comp_def]) (by simp)
  have hksne : keysOf ts ≠ [] := by
    unfold keysOf
    simp only [ne_eq, List.map_eq_nil_iff]
    exact hne
  have hefne : ef2.map Prod.snd ≠ [] := by
    simp only [ne_eq, List.map_eq_nil_iff]
    intro hh
    rw [hh] at hefk
    exact hksne hefk.symm
  obtain ⟨mk, hmk⟩ := pyMax_isSome hefne
  refine ⟨mk, es2, ef2, ?_, hesk, hefk, hmk, ?_⟩
  · show (match topo_order ts with
      | none => none
      | some ord2 =>
        match etrLoop ts ord2 ((keysOf ts).map (fun n => (n, (0 : Int))))
            ((keysOf ts).map (fun n => (n, (0 : Int)))) with
        | none => none
        | some (es3, ef3) =>
          match pyMax (ef3.map Prod.snd) with
          | none => none
          | some mk2 => some (mk2, es3, ef3)) = some (mk, es2, ef2)
    rw [hto]
    show (match etrLoop ts ord ((keysOf ts).map (fun n => (n, (0 : Int))))
          ((keysOf ts).map (fun n => (n, (0 : Int)))) with
      | none => none
      | some (es3, ef3) =>
        match pyMax (ef3.map Prod.snd) with
        | none => none
        | some mk2 => some (mk2, es3, ef3)) = some (mk, es2, ef2)
    rw [hloop]
    show (match pyMax (ef2.map Prod.snd) with
      | none => none
      | some mk2 => some (mk2, es2, ef2)) = some (mk, es2, ef2)
    rw [hmk]
  · intro p hp
    have hpk : p.1 ∈ keysOf ts := mem_keys_of_mem hp
    obtain ⟨t, hlkt, st, hs, hf, h0, hmax⟩ := hrec p.1 ((hext p.1).2 hpk)
    have hlkp : ts.tasks.lookup p.1 = some p.2 := by
      have hp' : (p.1, p.2) ∈ ts.tasks := by
        obtain ⟨a, b⟩ := p
        exact hp
      exact mem_lookup_of_nodup hU hp'
    rw [hlkp] at hlkt
    obtain rfl : p.2 = t := by injection hlkt
    exact ⟨st, hs, hf, h0, hmax⟩

/-- Master theorem for `expected_total_runtime` on a validated non-empty task
set, with the acyclicity rank drawn from `validate_tasks`. -/
theorem etr_master (ts : TaskSet)
    (hN : ∀ p ∈ ts.tasks, (p.2).name = p.1)
    (hU : (keysOf ts).Nodup)
    (hV : validate_tasks ts = some [])
    (hne : ts.tasks ≠ []) :
    ∃ mk es ef, expected_total_runtime ts = some (mk, es, ef) ∧
      es.map Prod.fst = keysOf ts ∧ ef.map Prod.fst = keysOf ts ∧
      pyMax (ef.map Prod.snd) = some mk ∧
      ∀ p ∈ ts.tasks, ∃ s, es.lookup p.1 = some s ∧
        ef.lookup p.1 = some (s + (p.2).duration_seconds) ∧
        ((p.2).deps = [] → s = 0) ∧
        ((p.2).deps ≠ [] → ∃ l, (p.2).deps.mapM (fun d => ef.lookup d) = some l ∧
          pyMax l = some s) := by
  have hfacts := perTask_nil_facts (validate_nil_decompose hV).1
  obtain ⟨r, hr⟩ := validate_rank hV
  exact etr_core ts hN hU (fun p hp d hd => ((hfacts p hp).2 d hd).2) r hr hne

/-- Inversion of a successful `expected_total_runtime` computation. -/
theorem etr_inv {ts : TaskSet} {mk : Int} {es ef : List (String × Int)}
    (h : expected_total_runtime ts = some (mk, es, ef)) :
    ∃ ord, topo_order ts = some ord ∧
      etrLoop ts ord ((keysOf ts).map (fun n => (n, (0 : Int))))
        ((keysOf ts).map (fun n => (n, (0 : Int)))) = some (es, ef) ∧
      pyMax (ef.map Prod.snd) = some mk := by
  have h2 : (match topo_order ts with
      | none => none
      | some ord2 =>
        match etrLoop ts ord2 ((keysOf ts).map (fun n => (n, (0 : Int))))
            ((keysOf ts).map (fun n => (n, (0 : Int)))) with
        | none => none
        | some (es3, ef3) =>
          match pyMax (ef3.map Prod.snd) with
          | none => none
          | some mk2 => some (mk2, es3, ef3)) = some (mk, es, ef) := h
  split at h2
  · exact absurd h2 (by simp)
  · rename_i ord hto
    cases hloop : etrLoop ts ord ((keysOf ts).map (fun n => (n, (0 : Int))))
        ((keysOf ts).map (fun n => (n, (0 : Int)))) with
    | none =>
      rw [hloop] at h2
      exact Option.noConfusion h2
    | some p =>
      obtain ⟨es3, ef3⟩ := p
      rw [hloop] at h2
      cases ef3 with
      | nil => exact Option.noConfusion h2
      | cons hd tl =>
        have h3 : (some (((hd :: tl).map Prod.snd).tail.foldl rmax hd.2, es3, hd :: tl) :
            Option (Int × List (String × Int) × List (String × Int))) =
            some (mk, es, ef) := h2
        simp only [Option.some.injEq, Prod.mk.injEq] at h3
        obtain ⟨rfl, rfl, rfl⟩ := h3
        exact ⟨ord, hto, hloop, rfl⟩

/-- On an empty task dict `expected_total_runtime` hits `max()` of an empty
sequence and fails, whatever the order list holds. -/
theorem etr_empty (od : List String) :
    expected_total_runtime { tasks := [], order := od } = none := rfl

/-! ### Loading invariants -/

theorem keyStep_foldl_nodup :
    ∀ (l acc : List String), acc.Nodup → (l.foldl keyStep acc).Nodup := by
  intro l
  induction l with
  | nil => intro acc h; exact h
  | cons x t ih =>
    intro acc h
    simp only [List.foldl_cons]
    refine ih _ ?_
    unfold keyStep
    by_cases hx : x ∈ acc
    · rw [if_pos hx]; exact h
    · rw [if_neg hx]
      refine h.append (List.nodup_singleton x) ?_
      intro a ha hb
      rw [List.mem_singleton] at hb
      subst hb
      exact hx ha

theorem keyStep_foldl_mem :
    ∀ (l acc : List String) (y : String),
      y ∈ l.foldl keyStep acc ↔ y ∈ acc ∨ y ∈ l := by
  intro l
  induction l with
  | nil => intro acc y; simp
  | cons x t ih =>
    intro acc y
    simp only [List.foldl_cons]
    rw [ih]
    unfold keyStep
    by_cases hx : x ∈ acc
    · rw [if_pos hx]
      constructor
      · rintro (h | h)
        · exact Or.inl h
        · exact Or.inr (List.mem_cons_of_mem _ h)
      · rintro (h | h)
        · exact Or.inl h
        · rcases List.mem_cons.1 h with rfl | h2
          · exact Or.inl hx
          · exact Or.inr h2
    · rw [if_neg hx]
      simp only [List.mem_append, List.mem_singleton, List.mem_cons]
      tauto

theorem specKeys_nodup (l : List String) : (specKeys l).Nodup :=
  keyStep_foldl_nodup l [] List.nodup_nil

theorem specKeys_mem (l : List String) (y : String) : y ∈ specKeys l ↔ y ∈ l := by
  unfold specKeys
  rw [keyStep_foldl_mem]
  simp

theorem specKeys_append (l : List String) (x : String) :
    specKeys (l ++ [x]) = keyStep (specKeys l) x := by
  unfold specKeys
  rw [List.foldl_append]
  rfl

theorem load_go_keys :
    ∀ (parsed : List (Option Task)) (acc : TaskSet),
      acc.tasks.map Prod.fst = specKeys acc.order →
      (parsed.foldl loadStep acc).tasks.map Prod.fst =
        specKeys ((parsed.foldl loadStep acc).order) := by
  intro parsed
  induction parsed with
  | nil => intro acc h; exact h
  | cons item rest ih =>
    intro acc h
    simp only [List.foldl_cons]
    refine ih _ ?_
    cases item with
    | none => exact h
    | some t =>
      show (upsert acc.tasks t.name t).map Prod.fst =
        specKeys (acc.order ++ [t.name])
      rw [specKeys_append]
      unfold keyStep
      by_cases hmem : t.name ∈ acc.tasks.map Prod.fst
      · have hm2 : t.name ∈ specKeys acc.order := by rw [← h]; exact hmem
        rw [if_pos hm2, upsert_map_fst_of_mem _ hmem, h]
      · have hm2 : ¬ t.name ∈ specKeys acc.order := by rw [← h]; exact hmem
        rw [if_neg hm2]
        unfold upsert
        rw [if_neg hmem, List.map_append, h]
        rfl

theorem load_go_lookup (k : String) :
    ∀ (parsed : List (Option Task)) (acc : TaskSet),
      (parsed.foldl loadStep acc).tasks.lookup k =
        parsed.foldl (lastStep k) (acc.tasks.lookup k) := by
  intro parsed
  induction parsed with
  | nil => intro acc; rfl
  | cons item rest ih =>
    intro acc
    simp only [List.foldl_cons]
    rw [ih]
    congr 1
    cases item with
    | none => rfl
    | some t =>
      show (upsert acc.tasks t.name t).lookup k =
        (if t.name = k then some t else acc.tasks.lookup k)
      by_cases hk : t.name = k
      · subst hk
        rw [if_pos rfl]
        exact upsert_lookup_self t
      · rw [if_neg hk]
        exact upsert_lookup_other t (fun hh => hk hh.symm)

theorem load_go_names :
    ∀ (parsed : List (Option Task)) (acc : TaskSet),
      (∀ p ∈ acc.tasks, (p.2).name = p.1) →
      ∀ p ∈ (parsed.foldl loadStep acc).tasks, (p.2).name = p.1 := by
  intro parsed
  induction parsed with
  | nil => intro acc h; exact h
  | cons item rest ih =>
    intro acc h
    simp only [List.foldl_cons]
    refine ih _ ?_
    cases item with
    | none => exact h
    | some t =>
      intro p hp
      rcases mem_upsert hp with h1 | h1
      · exact h p h1
      · rw [h1]

/-- A table keyed like `l` whose lookups agree with `f` is the pointwise map
of `f` over `l`. -/
theorem eq_map_of_lookup {β : Type} (f : String × Task → β) :
    ∀ (l : List (String × Task)) (m : List (String × β)),
      m.map Prod.fst = l.map Prod.fst → (l.map Prod.fst).Nodup →
      (∀ p ∈ l, m.lookup p.1 = some (f p)) →
      m = l.map (fun p => (p.1, f p)) := by
  intro l
  induction l with
  | nil =>
    intro m hk _ _
    have hk2 : m.map Prod.fst = [] := by simpa using hk
    have hm : m = [] := List.map_eq_nil_iff.1 hk2
    rw [hm]
    rfl
  | cons p lt ih =>
    intro m hk hnd hlk
    cases m with
    | nil => simp at hk
    | cons q mt =>
      simp only [List.map_cons, List.cons.injEq] at hk
      obtain ⟨hq1, hk2⟩ := hk
      simp only [List.map_cons, List.nodup_cons] at hnd
      obtain ⟨hp1, hnd2⟩ := hnd
      obtain ⟨a, b⟩ := q
      simp only at hq1
      subst hq1
      have h1 := hlk p (List.mem_cons_self _ _)
      rw [lookup_cons_eq] at h1
      have hb : b = f p := by injection h1
      subst hb
      have htail : ∀ p2 ∈ lt, mt.lookup p2.1 = some (f p2) := by
        intro p2 hp2
        have h2 := hlk p2 (List.mem_cons_of_mem _ hp2)
        have hne : p2.1 ≠ p.1 := by
          intro hh
          exact hp1 (hh ▸ List.mem_map_of_mem Prod.fst hp2)
        rw [lookup_cons_ne _ _ hne] at h2
        exact h2
      simp only [List.map_cons]
      rw [ih mt hk2 hnd2 htail]

/-! ### The claims -/

/-- C1: for every task set that passes validation with no problems (and whose
task dict is well-formed, i.e. every entry is keyed by its task's name and the
keys carry no duplicate, as `load_tasks_from_text` guarantees), `topo_order`
returns a permutation of all task names whose length equals the number of
tasks and in which every declared dependency of a task appears strictly
before the task itself. -/
theorem C1_topo_valid (ts : TaskSet)
    (hN : ∀ p ∈ ts.tasks, (p.2).name = p.1)
    (hU : (keysOf ts).Nodup)
    (hV : validate_tasks ts = some []) :
    ∃ ord, topo_order ts = some ord ∧ ord.Perm (keysOf ts) ∧
      ord.length = ts.tasks.length ∧
      ∀ n ∈ ord, ∀ d ∈ depsOf ts n, ord.indexOf d < ord.indexOf n := by
  obtain ⟨ord, h1, _, _, h4, h5, h6⟩ := topo_master ts hN hU hV
  exact ⟨ord, h1, h4, h5, h6⟩

/-- Witness for C1 at Scenario A. -/
theorem C1_topo_valid_witness :
    ∃ ord, topo_order scA = some ord ∧ ord.Perm (keysOf scA) ∧
      ord.length = scA.tasks.length ∧
      ∀ n ∈ ord, ∀ d ∈ depsOf scA n, ord.indexOf d < ord.indexOf n :=
  C1_topo_valid scA (by decide) (by decide) rfl

/-- C2 (amended: the task set must additionally be non-empty — on the empty
task set `expected_total_runtime` fails instead of returning values): for
every non-empty well-formed validated task set the computation succeeds, the
makespan is the Python max of the earliest-finish values, and every task
satisfies the earliest start/finish recurrence (start 0 without dependencies,
otherwise the max of the dependencies' finishes; finish = start + duration);
for Scenario A it returns exactly the claimed tables and makespan 5. -/
theorem C2_critical_path (ts : TaskSet)
    (hN : ∀ p ∈ ts.tasks, (p.2).name = p.1)
    (hU : (keysOf ts).Nodup)
    (hV : validate_tasks ts = some [])
    (hne : ts.tasks ≠ []) :
    (∃ mk es ef, expected_total_runtime ts = some (mk, es, ef) ∧
      pyMax (ef.map Prod.snd) = some mk ∧
      ∀ p ∈ ts.tasks, EtrRec ts es ef p.1) ∧
    expected_total_runtime scA =
      some (5, [("A", 0), ("B", 1), ("C", 1), ("D", 4)],
               [("A", 1), ("B", 3), ("C", 4), ("D", 5)]) := by
  refine ⟨?_, rfl⟩
  obtain ⟨mk, es, ef, hrun, hesk, hefk, hmk, hrec⟩ := etr_master ts hN hU hV hne
  refine ⟨mk, es, ef, hrun, hmk, ?_⟩
  intro p hp
  obtain ⟨s, hs, hf, h0, hmax⟩ := hrec p hp
  have hlkp : ts.tasks.lookup p.1 = some p.2 := by
    obtain ⟨a, b⟩ := p
    exact mem_lookup_of_nodup hU hp
  exact ⟨p.2, hlkp, s, hs, hf, h0, hmax⟩

/-- Witness for C2 at Scenario A. -/
theorem C2_critical_path_witness :
    (∃ mk es ef, expected_total_runtime scA = some (mk, es, ef) ∧
      pyMax (ef.map Prod.snd) = some mk ∧
      ∀ p ∈ scA.tasks, EtrRec scA es ef p.1) ∧
    expected_total_runtime scA =
      some (5, [("A", 0), ("B", 1), ("C", 1), ("D", 4)],
               [("A", 1), ("B", 3), ("C", 4), ("D", 5)]) :=
  C2_critical_path scA (by decide) (by decide) rfl (by decide)

/-- Counterexample to C2 as stated: the empty task set is validated (so it is
a valid TaskSet in the claim's sense), yet `expected_total_runtime` returns
nothing at all. -/
theorem C2_empty_cex :
    validate_tasks emptyTS = some [] ∧ expected_total_runtime emptyTS = none :=
  ⟨rfl, rfl⟩

/-- C3: refuted by a crash. The per-task pass does record exactly the one
dangling-dependency problem of Scenario D, but `validate_tasks` as a whole
returns no problem list: the cycle traversal dereferences the missing key Z
in the color dict (line 120), an uncaught KeyError. -/
theorem C3_dangling_crash :
    perTaskErrors scD = [msgDangling "A" "Z"] ∧ validate_tasks scD = none :=
  ⟨rfl, rfl⟩

/-- C4: refuted by a crash. Scenario B is reported exactly as claimed, but
the universally quantified half fails on `cex4` (cycle a-b plus a task e
depending on b): after the a-b cycle aborts the first traversal, b stays gray
though it is no longer on any stack, so the traversal from e evaluates
`stack.index(b)` on the stack [e] (line 124), an uncaught ValueError, and no
problem list is returned. -/
theorem C4_cycle_crash :
    validate_tasks scB = some [msgCycle ["X", "Y", "X"]] ∧
    validate_tasks cex4 = none :=
  ⟨rfl, rfl⟩

/-- C5 (amended: the order sequence is not duplicate-free — it records every
declaration, so a name declared k times occurs k times in it; the bijection
holds between the mapping's keys and the `distinct` names of the order
sequence: the keys are exactly the names of the order sequence with each name
kept at its first occurrence, every key occurs exactly once in the mapping,
its value is the last task declared under that name, and every entry is keyed
by its task's name). -/
theorem C5_load_bijection (parsed : List (Option Task)) :
    keysOf (load_tasks_from_text parsed) =
      specKeys ((load_tasks_from_text parsed).order) ∧
    (keysOf (load_tasks_from_text parsed)).Nodup ∧
    (∀ x, x ∈ keysOf (load_tasks_from_text parsed) ↔
      x ∈ (load_tasks_from_text parsed).order) ∧
    (∀ k, (load_tasks_from_text parsed).tasks.lookup k = lastTask parsed k) ∧
    (∀ p ∈ (load_tasks_from_text parsed).tasks, (p.2).name = p.1) := by
  have hkeys := load_go_keys parsed { tasks := [], order := [] } rfl
  refine ⟨hkeys, ?_, ?_, ?_, ?_⟩
  · rw [show keysOf (load_tasks_from_text parsed) =
      specKeys ((load_tasks_from_text parsed).order) from hkeys]
    exact specKeys_nodup _
  · intro x
    rw [show keysOf (load_tasks_from_text parsed) =
      specKeys ((load_tasks_from_text parsed).order) from hkeys]
    exact specKeys_mem _ x
  · intro k
    exact load_go_lookup k parsed { tasks := [], order := [] }
  · exact load_go_names parsed { tasks := [], order := [] }
      (fun p hp => absurd hp (List.not_mem_nil p))

/-- Counterexample to C5 as stated: declaring A twice leaves A twice in the
order sequence (so a name of the order sequence does not occur in it exactly
once), while the mapping holds a single entry for A carrying the last
declared task. -/
theorem C5_duplicate_cex :
    (load_tasks_from_text dupParsed).order = ["A", "B", "A"] ∧
    keysOf (load_tasks_from_text dupParsed) = ["A", "B"] ∧
    (load_tasks_from_text dupParsed).tasks.lookup "A" = some (mkTask "A" 3 []) :=
  ⟨rfl, rfl, rfl⟩

/-- C6: refuted by a crash. With the two disjoint cycles a-b and c-d alone
both cycles are indeed reported, one string each; but adding a task e that
depends on b (declared between the cycles) makes the traversal from e hit the
stale gray b with `stack.index` (line 124), and `validate_tasks` crashes
before the c-d cycle is ever examined. -/
theorem C6_disjoint_cycles_crash :
    validate_tasks twoCycles =
      some [msgCycle ["a", "b", "a"], msgCycle ["c", "d", "c"]] ∧
    validate_tasks cex6 = none :=
  ⟨rfl, rfl⟩

/-- C7 (amended: the task set must be non-empty and well-formed — the empty
task set has no dependency edges yet produces no makespan): on a non-empty
task set with no dependency edges, `expected_total_runtime` succeeds, every
earliest start is 0, every earliest finish is the task's own duration, and
the makespan is the Python max of the durations. -/
theorem C7_no_deps (ts : TaskSet)
    (hN : ∀ p ∈ ts.tasks, (p.2).name = p.1)
    (hU : (keysOf ts).Nodup)
    (hND : ∀ p ∈ ts.tasks, (p.2).deps = [])
    (hne : ts.tasks ≠ []) :
    ∃ mk, expected_total_runtime ts =
        some (mk, ts.tasks.map (fun p => (p.1, (0 : Int))),
              ts.tasks.map (fun p => (p.1, (p.2).duration_seconds))) ∧
      pyMax (ts.tasks.map (fun p => (p.2).duration_seconds)) = some mk := by
  have hD : ∀ p ∈ ts.tasks, ∀ d ∈ (p.2).deps, d ∈ keysOf ts := by
    intro p hp d hd
    rw [hND p hp] at hd
    exact absurd hd (List.not_mem_nil d)
  have hr : ∀ u t, ts.tasks.lookup u = some t → ∀ v ∈ t.deps,
      (fun _ => 0 : String → Nat) v < (fun _ => 0 : String → Nat) u := by
    intro u t hlk v hv
    rw [hND (u, t) (lookup_mem hlk)] at hv
    exact absurd hv (List.not_mem_nil v)
  obtain ⟨mk, es, ef, hrun, hesk, hefk, hmk, hrec⟩ :=
    etr_core ts hN hU hD (fun _ => 0) hr hne
  have hUk : (ts.tasks.map Prod.fst).Nodup := hU
  have hes_eq : es = ts.tasks.map (fun p => (p.1, (0 : Int))) := by
    refine eq_map_of_lookup (fun _ => (0 : Int)) ts.tasks es ?_ hUk ?_
    · rw [hesk]; rfl
    · intro p hp
      obtain ⟨s, hs, _, h0, _⟩ := hrec p hp
      rw [h0 (hND p hp)] at hs
      exact hs
  have hef_eq : ef = ts.tasks.map (fun p => (p.1, (p.2).duration_seconds)) := by
    refine eq_map_of_lookup (fun p => (p.2).duration_seconds) ts.tasks ef ?_ hUk ?_
    · rw [hefk]; rfl
    · intro p hp
      obtain ⟨s, hs, hf, h0, _⟩ := hrec p hp
      rw [h0 (hND p hp)] at hf
      rw [zero_add] at hf
      exact hf
  refine ⟨mk, ?_, ?_⟩
  · rw [hes_eq, hef_eq] at hrun
    exact hrun
  · rw [hef_eq] at hmk
    have hm2 : (ts.tasks.map (fun p => (p.1, (p.2).duration_seconds))).map
        Prod.snd = ts.tasks.map (fun p => (p.2).duration_seconds) := by
      rw [List.map_map]
      rfl
    rw [hm2] at hmk
    exact hmk

/-- Witness for C7 at a three-task edge-free set. -/
theorem C7_no_deps_witness :
    ∃ mk, expected_total_runtime noDepTS =
        some (mk, noDepTS.tasks.map (fun p => (p.1, (0 : Int))),
              noDepTS.tasks.map (fun p => (p.1, (p.2).duration_seconds))) ∧
      pyMax (noDepTS.tasks.map (fun p => (p.2).duration_seconds)) = some mk :=
  C7_no_deps noDepTS (by decide) (by decide) (by decide) (by decide)

/-- Counterexample to C7 as stated: the empty task set has no dependency
anywhere, yet `expected_total_runtime` returns no makespan at all. -/
theorem C7_empty_cex :
    (∀ p ∈ emptyTS.tasks, (p.2).deps = []) ∧
    expected_total_runtime emptyTS = none :=
  ⟨fun p hp => absurd hp (List.not_mem_nil p), rfl⟩

/-- C9: on a well-formed validated task set with non-negative durations,
whenever `expected_total_runtime` returns, the makespan and every earliest
start and earliest finish value are non-negative, and each task's earliest
finish is its earliest start plus its duration, hence at least its earliest
start. -/
theorem C9_nonneg (ts : TaskSet)
    (hN : ∀ p ∈ ts.tasks, (p.2).name = p.1)
    (hU : (keysOf ts).Nodup)
    (hV : validate_tasks ts = some [])
    (hDur : ∀ p ∈ ts.tasks, 0 ≤ (p.2).duration_seconds)
    (mk : Int) (es ef : List (String × Int))
    (h : expected_total_runtime ts = some (mk, es, ef)) :
    0 ≤ mk ∧ (∀ q ∈ es, 0 ≤ q.2) ∧ (∀ q ∈ ef, 0 ≤ q.2) ∧
      ∀ p ∈ ts.tasks, ∃ s, es.lookup p.1 = some s ∧
        ef.lookup p.1 = some (s + (p.2).duration_seconds) ∧
        s ≤ s + (p.2).duration_seconds := by
  obtain ⟨ord, hto, hloop, hpm⟩ := etr_inv h
  have hinit : ∀ q ∈ (keysOf ts).map (fun n => (n, (0 : Int))), 0 ≤ q.2 := by
    intro q hq
    obtain ⟨n, _, rfl⟩ := List.mem_map.1 hq
    exact le_refl 0
  obtain ⟨hes, hef⟩ := etrLoop_nonneg ts hDur ord _ _ es ef hloop hinit hinit
  have hmk : 0 ≤ mk := by
    obtain ⟨q, hq, hq2⟩ := List.mem_map.1 (pyMax_mem hpm)
    rw [← hq2]
    exact hef q hq
  refine ⟨hmk, hes, hef, ?_⟩
  have hne : ts.tasks ≠ [] := by
    intro hnil
    obtain ⟨tk, od⟩ := ts
    simp only at hnil
    subst hnil
    rw [etr_empty] at h
    exact Option.noConfusion h
  obtain ⟨mk2, es2, ef2, hrun2, _, _, _, hrec⟩ := etr_master ts hN hU hV hne
  rw [h] at hrun2
  simp only [Option.some.injEq, Prod.mk.injEq] at hrun2
  obtain ⟨rfl, rfl, rfl⟩ := hrun2
  intro p hp
  obtain ⟨s, hs, hf, _, _⟩ := hrec p hp
  exact ⟨s, hs, hf, le_add_of_nonneg_right (hDur p hp)⟩

/-- Witness for C9 at Scenario A. -/
theorem C9_nonneg_witness :
    0 ≤ (5 : Int) ∧
      (∀ q ∈ [("A", (0 : Int)), ("B", 1), ("C", 1), ("D", 4)], 0 ≤ q.2) ∧
      (∀ q ∈ [("A", (1 : Int)), ("B", 3), ("C", 4), ("D", 5)], 0 ≤ q.2) ∧
      ∀ p ∈ scA.tasks, ∃ s,
        [("A", (0 : Int)), ("B", 1), ("C", 1), ("D", 4)].lookup p.1 = some s ∧
        [("A", (1 : Int)), ("B", 3), ("C", 4), ("D", 5)].lookup p.1 =
          some (s + (p.2).duration_seconds) ∧
        s ≤ s + (p.2).duration_seconds :=
  C9_nonneg scA (by decide) (by decide) rfl (by decide) 5
    [("A", 0), ("B", 1), ("C", 1), ("D", 4)]
    [("A", 1), ("B", 3), ("C", 4), ("D", 5)] rfl

/-- C10: on the empty task set validation succeeds with the empty problem
list — and even the topological ordering and the propagation loop succeed —
but the makespan is the Python max of an empty collection of earliest-finish
values, so `expected_total_runtime` returns nothing: the critical-path
computation is partial even on a validated task set. -/
theorem C10_empty_validated :
    validate_tasks emptyTS = some [] ∧ topo_order emptyTS = some [] ∧
    etrLoop emptyTS [] [] [] = some ([], []) ∧ pyMax [] = none ∧
    expected_total_runtime emptyTS = none :=
  ⟨rfl, rfl, rfl, rfl, rfl⟩

end Scheduler
